import Mathlib

/-!
Verification of the Sudoku solver in `SudokuSolver/Source.cpp`.

The first half of this file is a shallow embedding of the program: boards are
functions `Fin 9 → Fin 9 → Nat` (the `uint8_t board[9][9]` array), the pure
helpers `checkRowForValue`, `checkColumnForValue`, `checkSectionForValue` and
`getMoveValues` are translated directly, the scanning loop of
`getBestBoardSpace` becomes the list recursion `bestLoop`, and the recursive
`solveBoard` becomes the fuel-indexed state-passing function `solveBoardT`
(fuel `emptyCount b + 1` is proven sufficient below, so the fuel is only a
termination device).  `solveBoardT` additionally returns the list of board
states after each write the solver performs, so that the write-by-write
invariant of the specification can be stated.  The puzzle loader `loadPuzzle`
is modelled together with the `std::istream` state (eofbit/failbit) it
manipulates through `std::getline`, and `mainModel` records the sequence of
print events of `main`.

The second half proves or refutes the specified properties of these
definitions.
-/

set_option linter.unusedVariables false
set_option maxRecDepth 100000

/-- Board of the solver: a 9×9 grid of cell values (`uint8_t board[9][9]` in
Source.cpp), value 0 meaning an empty cell and 1–9 a filled cell. -/
abbrev Board := Fin 9 → Fin 9 → Nat

/-- BoardSpace (Source.cpp lines 12–22): a cell coordinate together with the
queue of candidate values for that space.  The C++ `std::queue<uint8_t>` is
modelled as a `List Nat` with the front of the queue first.  The C++ default
constructor leaves `x`, `y` uninitialized; the embedding uses 0 — the fields
are only ever read after they have been assigned. -/
structure BoardSpace where
  x : Fin 9
  y : Fin 9
  possible_values : List Nat
deriving DecidableEq

/-- Writing one cell of the board: `board[x][y] = v`. -/
def setCell (b : Board) (x y : Fin 9) (v : Nat) : Board :=
  fun i j => if i = x then (if j = y then v else b i j) else b i j

/-- checkRowForValue (Source.cpp lines 33–42): scans the nine cells of `row`
for `value`. -/
def checkRowForValue (value : Nat) (row : Fin 9) (board : Board) : Bool :=
  (List.finRange 9).any fun col => board row col == value

/-- checkColumnForValue (Source.cpp lines 44–53): scans the nine cells of
`col` for `value`. -/
def checkColumnForValue (value : Nat) (col : Fin 9) (board : Board) : Bool :=
  (List.finRange 9).any fun row => board row col == value

/-- Origin coordinate of the 3×3 section containing coordinate `n`:
`row - (row % 3)` (Source.cpp lines 58–59). -/
def sectionBase (n : Fin 9) : Nat := n.val - n.val % 3

/-- Cell coordinate inside a 3×3 section: the origin plus an offset below 3;
this stays below 9, which is the in-bounds fact behind the C++ array access
`board[i][j]` of the section scan. -/
def sectionCell (n : Fin 9) (d : Fin 3) : Fin 9 :=
  ⟨sectionBase n + d.val, by simp only [sectionBase]; omega⟩

/-- checkSectionForValue (Source.cpp lines 55–71): scans the nine cells of the
3×3 section containing (row, col) for `value`. -/
def checkSectionForValue (value : Nat) (row col : Fin 9) (board : Board) : Bool :=
  (List.finRange 3).any fun i =>
    (List.finRange 3).any fun j =>
      board (sectionCell row i) (sectionCell col j) == value

/-- getMoveValues (Source.cpp lines 76–100): for the cell (x, y) collect, in
ascending order, every value 1–9 that is found in none of the cell's row,
column and 3×3 section. -/
def getMoveValues (x y : Fin 9) (board : Board) : BoardSpace :=
  { x := x, y := y,
    possible_values :=
      ([1, 2, 3, 4, 5, 6, 7, 8, 9] : List Nat).filter fun value =>
        !checkRowForValue value x board &&
        !checkColumnForValue value y board &&
        !checkSectionForValue value x y board }

/-- Cells of the board in the row-major order of the two nested loops of
getBestBoardSpace (Source.cpp lines 110–112): x ascending, then y ascending. -/
def cellsRowMajor : List (Fin 9 × Fin 9) :=
  (List.finRange 9).flatMap fun x => (List.finRange 9).map fun y => (x, y)

/-- Scanning loop of getBestBoardSpace (Source.cpp lines 109–143) over the
remaining cells, carrying the current `best_move`.  For an empty cell: an
empty candidate queue returns immediately with the queue of `best_move`
cleared (lines 130–135), a single-candidate queue returns that move
immediately (lines 120–125), and otherwise a strictly smaller queue replaces
`best_move` (lines 127–128).  After the loop the sentinel length 10 means no
empty cell was seen (lines 140–143). -/
def bestLoop (board : Board) : List (Fin 9 × Fin 9) → BoardSpace → Bool × BoardSpace
  | [], best_move =>
    if best_move.possible_values.length = 10 then (true, best_move)
    else (false, best_move)
  | p :: rest, best_move =>
    if board p.1 p.2 = 0 then
      let move := getMoveValues p.1 p.2 board
      if move.possible_values = [] then
        (false, { best_move with possible_values := [] })
      else if move.possible_values.length = 1 then (false, move)
      else if move.possible_values.length < best_move.possible_values.length then
        bestLoop board rest move
      else bestLoop board rest best_move
    else bestLoop board rest best_move

/-- getBestBoardSpace (Source.cpp lines 104–144): the scan starts from the
sentinel `best_move` whose queue holds the ten values 0–9 (lines 106–107).
The pair returned is the C++ boolean result together with the `best_move`
out-parameter. -/
def getBestBoardSpace (board : Board) : Bool × BoardSpace :=
  bestLoop board cellsRowMajor ⟨0, 0, List.range 10⟩

/-- Number of empty (zero) cells of a board; the termination measure of
solveBoard's recursion. -/
def emptyCount (b : Board) : Nat :=
  (Finset.univ.filter fun p : Fin 9 × Fin 9 => b p.1 p.2 = 0).card

/-- Candidate loop of solveBoard (Source.cpp lines 164–175): write each
candidate in turn into cell (x, y) and recurse (`solveRec` is the recursive
call, one fuel level lower); on exhaustion clear the cell and report failure
(lines 173–175).  `none` means the recursion ran out of fuel.  The third
result component records the board after each write the solver performs
(`board[move.x][move.y] = ...`, lines 166 and 174), in execution order. -/
def tryMovesT (solveRec : Board → Option (Bool × Board × List Board)) (x y : Fin 9) :
    List Nat → Board → Option (Bool × Board × List Board)
  | [], board =>
    some (false, setCell board x y 0, [setCell board x y 0])
  | v :: rest, board =>
    match solveRec (setCell board x y v) with
    | none => none
    | some (true, b2, tr) => some (true, b2, setCell board x y v :: tr)
    | some (false, b2, tr) =>
      match tryMovesT solveRec x y rest b2 with
      | none => none
      | some (ok, b3, tr2) => some (ok, b3, setCell board x y v :: (tr ++ tr2))

/-- solveBoard (Source.cpp lines 148–177), fuel-indexed: ask
getBestBoardSpace for the best space; on the solved verdict return success
with the board untouched (lines 152–156), on an empty candidate queue return
failure with the board untouched (lines 161–162), otherwise run the candidate
loop.  Each nested recursive invocation consumes one unit of fuel. -/
def solveBoardT : Nat → Board → Option (Bool × Board × List Board)
  | 0, _ => none
  | fuel + 1, board =>
    let r := getBestBoardSpace board
    if r.1 then some (true, board, [])
    else if r.2.possible_values = [] then some (false, board, [])
    else tryMovesT (solveBoardT fuel) r.2.x r.2.y r.2.possible_values board

/-- solveBoard as called by main: result flag and final board.  The fuel
`emptyCount b + 1` is proven sufficient below (`solveBoardT_some`), so the
default branch is never taken. -/
def solveBoard (b : Board) : Bool × Board :=
  match solveBoardT (emptyCount b + 1) b with
  | some (ok, b2, _) => (ok, b2)
  | none => (false, b)

/-- State of the `std::ifstream` the loader reads from: the unread characters
and the eof/fail flags. -/
structure InStream where
  rest : List Char
  eofbit : Bool
  failbit : Bool

/-- Splits the unread characters at the first newline: returns the extracted
line and `some` remaining input when a newline was found (and consumed), or
`none` when the end of input was reached while extracting. -/
def takeLine : List Char → List Char × Option (List Char)
  | [] => ([], none)
  | c :: cs =>
    if c = '\n' then ([], some cs)
    else
      let r := takeLine cs
      (c :: r.1, r.2)

/-- Model of `std::getline(in, row_str)` per the C++ iostreams semantics: if
the stream is not good, the sentry fails, failbit is set and the target
string is left unchanged; otherwise the target is erased and characters are
extracted up to the next newline (consumed, not stored) or up to the end of
input — reaching the end of input sets eofbit, and extracting no characters
sets failbit. -/
def getlineStream (s : InStream) (str : List Char) : InStream × List Char :=
  if s.eofbit || s.failbit then ({ s with failbit := true }, str)
  else
    match takeLine s.rest with
    | (line, some rest2) => ({ s with rest := rest2 }, line)
    | (line, none) =>
      ({ rest := [], eofbit := true, failbit := line.isEmpty }, line)

/-- Model of C `isdigit` on the characters of the puzzle file. -/
def isdigitChar (c : Char) : Bool := decide ('0' ≤ c) && decide (c ≤ '9')

/-- Inner column loop of loadPuzzle (Source.cpp lines 216–226): each character
of the row must be a digit and is written to the board as its value
(ASCII code − 48). -/
def parseRow (x : Fin 9) : List (Char × Fin 9) → Board → Bool × Board
  | [], b => (true, b)
  | (c, y) :: rest, b =>
    if isdigitChar c then parseRow x rest (setCell b x y (c.toNat - 48))
    else (false, b)

/-- Outer row loop of loadPuzzle (Source.cpp lines 207–227).  The C++
`row_str` variable is declared outside the loop (line 206), so a getline whose
sentry fails leaves the previous line in it; each successfully read line must
have exactly nine characters (lines 210–214). -/
def loadRows : List (Fin 9) → InStream → List Char → Board → Bool × InStream × Board
  | [], s, _, b => (true, s, b)
  | x :: xs, s, row_str, b =>
    let g := getlineStream s row_str
    if g.2.length ≠ 9 then (false, g.1, b)
    else
      let pr := parseRow x (g.2.zip (List.finRange 9)) b
      if pr.1 then loadRows xs g.1 g.2 pr.2
      else (false, g.1, pr.2)

/-- loadPuzzle (Source.cpp lines 195–236) on an already-opened stream holding
`content`: read nine rows into `puzzle`, then require `in.eof()` to be set
(lines 229–233). -/
def loadPuzzle (content : List Char) (puzzle : Board) : Bool × Board :=
  let r := loadRows (List.finRange 9) ⟨content, false, false⟩ [] puzzle
  if r.1 then
    if r.2.1.eofbit then (true, r.2.2) else (false, r.2.2)
  else (false, r.2.2)

/-- Print events of main (Source.cpp lines 256–267), in order: the headings,
the boards handed to printBoard, and the timing line. -/
inductive OutEvent where
  | unsolvedHeading : OutEvent
  | solvedHeading : OutEvent
  | boardOut : Board → OutEvent
  | timeTaken : OutEvent

/-- main (Source.cpp lines 238–270) on the path where the puzzle file was
opened and holds text `content` (`puzzle` is the uninitialized stack array of
line 243): on load failure main returns a nonzero status without solving;
otherwise it prints the unsolved heading and board, calls solveBoard
discarding its boolean result (line 261), prints the solved heading and the
board again, and returns 0. -/
def mainModel (puzzle : Board) (content : List Char) : Int × List OutEvent :=
  let l := loadPuzzle content puzzle
  if l.1 = false then (-2, [])
  else
    let s := solveBoard l.2
    (0, [OutEvent.unsolvedHeading, OutEvent.boardOut l.2,
         OutEvent.solvedHeading, OutEvent.boardOut s.2, OutEvent.timeTaken])

/-- Specification predicate: the board has no empty cell. -/
def isFull (b : Board) : Prop := ∀ i j : Fin 9, b i j ≠ 0

/-- Specification predicate (spec §3 data model): every cell value lies in
[0, 9]. -/
def inRange (b : Board) : Prop := ∀ i j : Fin 9, b i j ≤ 9

/-- Specification predicate (spec §3 Board invariant): no row, column or 3×3
box contains two equal non-zero values.  Two distinct cells share a unit iff
they share a row, share a column, or agree coordinate-wise after division
by 3 (same box). -/
def conflictFree (b : Board) : Prop :=
  ∀ p q : Fin 9 × Fin 9, p ≠ q →
    (p.1 = q.1 ∨ p.2 = q.2 ∨ (p.1.val / 3 = q.1.val / 3 ∧ p.2.val / 3 = q.2.val / 3)) →
    b p.1 p.2 ≠ 0 → b p.1 p.2 ≠ b q.1 q.2

/-- Board s fills board b: s agrees with b on every non-empty cell of b. -/
def extendsBoard (b s : Board) : Prop := ∀ i j : Fin 9, b i j ≠ 0 → s i j = b i j

/-- s is a completion of b: a full, in-range, conflict-free board that keeps
every given of b. -/
def isCompletion (b s : Board) : Prop :=
  extendsBoard b s ∧ isFull s ∧ inRange s ∧ conflictFree s

/-- A puzzle is solvable when it has at least one completion. -/
def Solvable (b : Board) : Prop := ∃ s, isCompletion b s

/-- Cell coordinate of the box with index `t` at offset `d`. -/
def boxIdx (t : Fin 3) (d : Fin 3) : Fin 9 := ⟨3 * t.val + d.val, by omega⟩

/-- Specification predicate (spec §8): every row, every column and every 3×3
box contains each of the values 1–9 exactly once. -/
def isSolvedBoard (b : Board) : Prop :=
  (∀ r : Fin 9, ∀ v : Fin 9, ∃! c : Fin 9, b r c = v.val + 1) ∧
  (∀ c : Fin 9, ∀ v : Fin 9, ∃! r : Fin 9, b r c = v.val + 1) ∧
  (∀ bx bz : Fin 3, ∀ v : Fin 9, ∃! d : Fin 3 × Fin 3,
    b (boxIdx bx d.1) (boxIdx bz d.2) = v.val + 1)

/-- Candidate list of a cell, as computed by getMoveValues. -/
def candList (b : Board) (p : Fin 9 × Fin 9) : List Nat :=
  (getMoveValues p.1 p.2 b).possible_values

/-- Empty cells of the board, in the row-major scan order of
getBestBoardSpace. -/
def emptiesRM (b : Board) : List (Fin 9 × Fin 9) :=
  cellsRowMajor.filter fun p => b p.1 p.2 == 0

/-- Three verdicts of the global cell selector (spec §4.2). -/
inductive Verdict where
  | solved : Verdict
  | deadEnd : Verdict
  | branch : Fin 9 → Fin 9 → List Nat → Verdict
deriving DecidableEq

/-- Verdict read off getBestBoardSpace's result, following how solveBoard
(Source.cpp lines 152–164) interprets it: boolean result true means solved,
otherwise an empty candidate queue means a dead end, and otherwise the
returned space is the branch point. -/
def verdictOf (r : Bool × BoardSpace) : Verdict :=
  if r.1 then Verdict.solved
  else if r.2.possible_values = [] then Verdict.deadEnd
  else Verdict.branch r.2.x r.2.y r.2.possible_values

/-- Everywhere-empty board. -/
def zeroBoard : Board := fun _ _ => 0

/-- Full board holding 1 in every cell: full but far from validly solved. -/
def allOnesBoard : Board := fun _ _ => 1

/-- Concrete fully solved Sudoku board, used as a witness input. -/
def wSolved : Board := fun i j => (3 * (i.val % 3) + i.val / 3 + j.val) % 9 + 1

/-- wSolved with its top-left cell cleared: a one-hole solvable puzzle. -/
def wOneHole : Board := setCell wSolved 0 0 0

/-- Puzzle text whose board loads successfully but is unsolvable: cell (0,8)
must be 9 by its row, but column 8 already contains a 9. -/
def w9content : List Char :=
  ("123456780\n000000009\n000000000\n000000000\n000000000\n" ++
   "000000000\n000000000\n000000000\n000000000").toList

/-- Board loaded from w9content. -/
def w9board : Board := (loadPuzzle w9content zeroBoard).2

/-- Truncated puzzle text: five lines of nine digits, the last one not
newline-terminated — fewer than nine lines of input. -/
def w8trunc : List Char :=
  ("111111111\n111111111\n111111111\n111111111\n111111111").toList

/-- Puzzle text whose first row has only eight characters. -/
def w8shortRow : List Char :=
  ("11111111\n111111111\n111111111\n111111111\n111111111\n" ++
   "111111111\n111111111\n111111111\n111111111").toList

/-- Puzzle text with nine digit rows, each newline-terminated, the end of
input directly after the ninth row's newline. -/
def w8nineNL : List Char :=
  ("123456789\n123456789\n123456789\n123456789\n123456789\n" ++
   "123456789\n123456789\n123456789\n123456789\n").toList

instance decExistsUnique {α : Type} [Fintype α] [DecidableEq α] (p : α → Prop)
    [DecidablePred p] : Decidable (∃! x, p x) := by
  unfold ExistsUnique; infer_instance

instance (b : Board) : Decidable (isFull b) := by unfold isFull; infer_instance

instance (b : Board) : Decidable (inRange b) := by unfold inRange; infer_instance

instance (b : Board) : Decidable (conflictFree b) := by
  unfold conflictFree; infer_instance

instance (b s : Board) : Decidable (extendsBoard b s) := by
  unfold extendsBoard; infer_instance

instance (b s : Board) : Decidable (isCompletion b s) := by
  unfold isCompletion; infer_instance

instance (b : Board) : Decidable (isSolvedBoard b) := by
  unfold isSolvedBoard; infer_instance

/-! ### Basic lemmas about cells and writes -/

theorem setCell_self (b : Board) (x y : Fin 9) (v : Nat) : setCell b x y v x y = v := by
  simp [setCell]

theorem setCell_of_ne (b : Board) (x y i j : Fin 9) (v : Nat) (h : ¬(i = x ∧ j = y)) :
    setCell b x y v i j = b i j := by
  unfold setCell
  by_cases hx : i = x
  · by_cases hy : j = y
    · exact absurd ⟨hx, hy⟩ h
    · simp [hx, hy]
  · simp [hx]

theorem setCell_setCell (b : Board) (x y : Fin 9) (w v : Nat) :
    setCell (setCell b x y w) x y v = setCell b x y v := by
  funext i j
  unfold setCell
  by_cases hx : i = x <;> by_cases hy : j = y <;> simp [hx, hy]

theorem setCell_zero_eq (b : Board) (x y : Fin 9) (h : b x y = 0) :
    setCell b x y 0 = b := by
  funext i j
  unfold setCell
  by_cases hx : i = x <;> by_cases hy : j = y <;> simp [hx, hy]
  subst hx; subst hy; omega

theorem mem_cellsRowMajor (p : Fin 9 × Fin 9) : p ∈ cellsRowMajor := by
  simp only [cellsRowMajor, List.mem_flatMap, List.mem_map]
  exact ⟨p.1, List.mem_finRange p.1, p.2, List.mem_finRange p.2, rfl⟩

theorem emptyCount_setCell_lt (b : Board) (x y : Fin 9) (v : Nat)
    (h0 : b x y = 0) (hv : v ≠ 0) : emptyCount (setCell b x y v) < emptyCount b := by
  unfold emptyCount
  apply Finset.card_lt_card
  rw [Finset.ssubset_iff_of_subset]
  · exact ⟨(x, y), by simp [h0], by simp [setCell_self, hv]⟩
  · intro p hp
    simp only [Finset.mem_filter, Finset.mem_univ, true_and] at hp ⊢
    by_cases hpe : p.1 = x ∧ p.2 = y
    · rw [show p = (x, y) from Prod.ext hpe.1 hpe.2] at hp
      rw [setCell_self] at hp
      exact absurd hp hv
    · rwa [setCell_of_ne _ _ _ _ _ _ hpe] at hp

theorem emptyCount_pos (b : Board) (x y : Fin 9) (h0 : b x y = 0) :
    0 < emptyCount b := by
  unfold emptyCount
  apply Finset.card_pos.mpr
  exact ⟨(x, y), by simp [h0]⟩

theorem emptyCount_le (b : Board) : emptyCount b ≤ 81 := by
  calc emptyCount b ≤ Fintype.card (Fin 9 × Fin 9) := Finset.card_filter_le _ _
  _ = 81 := by simp

/-! ### The three scan helpers and getMoveValues -/

theorem checkRow_iff (v : Nat) (r : Fin 9) (b : Board) :
    checkRowForValue v r b = true ↔ ∃ c, b r c = v := by
  simp [checkRowForValue, List.any_eq_true]

theorem checkColumn_iff (v : Nat) (c : Fin 9) (b : Board) :
    checkColumnForValue v c b = true ↔ ∃ r, b r c = v := by
  simp [checkColumnForValue, List.any_eq_true]

theorem sectionCell_val (n : Fin 9) (d : Fin 3) :
    (sectionCell n d).val = n.val - n.val % 3 + d.val := rfl

theorem checkSection_iff (v : Nat) (x y : Fin 9) (b : Board) :
    checkSectionForValue v x y b = true ↔
      ∃ q : Fin 9 × Fin 9, q.1.val / 3 = x.val / 3 ∧ q.2.val / 3 = y.val / 3 ∧
        b q.1 q.2 = v := by
  simp only [checkSectionForValue, List.any_eq_true, List.mem_finRange, beq_iff_eq,
    true_and]
  constructor
  · rintro ⟨i, j, h⟩
    refine ⟨(sectionCell x i, sectionCell y j), ?_, ?_, h⟩
    · have hx := x.isLt; have hi := i.isLt
      rw [sectionCell_val]; omega
    · have hy := y.isLt; have hj := j.isLt
      rw [sectionCell_val]; omega
  · rintro ⟨⟨q1, q2⟩, h1, h2, h3⟩
    replace h1 : q1.val / 3 = x.val / 3 := h1
    replace h2 : q2.val / 3 = y.val / 3 := h2
    replace h3 : b q1 q2 = v := h3
    have hq1 := q1.isLt; have hx := x.isLt
    have hq2 := q2.isLt; have hy := y.isLt
    have hd1 : q1.val - (x.val - x.val % 3) < 3 := by omega
    have hd2 : q2.val - (y.val - y.val % 3) < 3 := by omega
    refine ⟨⟨q1.val - (x.val - x.val % 3), hd1⟩,
            ⟨q2.val - (y.val - y.val % 3), hd2⟩, ?_⟩
    have e1 : sectionCell x ⟨q1.val - (x.val - x.val % 3), hd1⟩ = q1 := by
      apply Fin.ext
      rw [sectionCell_val]
      show x.val - x.val % 3 + (q1.val - (x.val - x.val % 3)) = q1.val
      omega
    have e2 : sectionCell y ⟨q2.val - (y.val - y.val % 3), hd2⟩ = q2 := by
      apply Fin.ext
      rw [sectionCell_val]
      show y.val - y.val % 3 + (q2.val - (y.val - y.val % 3)) = q2.val
      omega
    rw [e1, e2]; exact h3

theorem mem_getMoveValues (v : Nat) (x y : Fin 9) (b : Board) :
    v ∈ (getMoveValues x y b).possible_values ↔
      (1 ≤ v ∧ v ≤ 9) ∧ checkRowForValue v x b = false ∧
      checkColumnForValue v y b = false ∧ checkSectionForValue v x y b = false := by
  show v ∈ List.filter _ _ ↔ _
  rw [List.mem_filter]
  constructor
  · rintro ⟨hm, hp⟩
    simp only [Bool.and_eq_true, Bool.not_eq_true'] at hp
    refine ⟨?_, hp.1.1, hp.1.2, hp.2⟩
    simp only [List.mem_cons, List.not_mem_nil, or_false] at hm
    omega
  · rintro ⟨⟨h1, h9⟩, hr, hc, hs⟩
    refine ⟨?_, ?_⟩
    · simp only [List.mem_cons, List.not_mem_nil, or_false]
      omega
    · simp only [Bool.and_eq_true, Bool.not_eq_true']
      exact ⟨⟨hr, hc⟩, hs⟩

theorem mem_candList (b : Board) (p : Fin 9 × Fin 9) (v : Nat) :
    v ∈ candList b p ↔
      (1 ≤ v ∧ v ≤ 9) ∧ (∀ c, b p.1 c ≠ v) ∧ (∀ r, b r p.2 ≠ v) ∧
      (∀ q : Fin 9 × Fin 9, q.1.val / 3 = p.1.val / 3 → q.2.val / 3 = p.2.val / 3 →
        b q.1 q.2 ≠ v) := by
  rw [candList, mem_getMoveValues]
  rw [show (checkRowForValue v p.1 b = false) ↔ ¬(checkRowForValue v p.1 b = true) by
        simp]
  rw [show (checkColumnForValue v p.2 b = false) ↔ ¬(checkColumnForValue v p.2 b = true) by
        simp]
  rw [show (checkSectionForValue v p.1 p.2 b = false) ↔
        ¬(checkSectionForValue v p.1 p.2 b = true) by simp]
  rw [checkRow_iff, checkColumn_iff, checkSection_iff]
  push_neg
  constructor
  · rintro ⟨h0, h1, h2, h3⟩
    exact ⟨h0, h1, h2, fun q hq1 hq2 => h3 q hq1 hq2⟩
  · rintro ⟨h0, h1, h2, h3⟩
    exact ⟨h0, h1, h2, fun q hq1 hq2 => h3 q hq1 hq2⟩

theorem candList_sorted (b : Board) (p : Fin 9 × Fin 9) :
    List.Pairwise (· < ·) (candList b p) :=
  List.Pairwise.filter _ (by decide)

theorem candList_nodup (b : Board) (p : Fin 9 × Fin 9) : (candList b p).Nodup :=
  (candList_sorted b p).imp Nat.ne_of_lt

theorem candList_length_le (b : Board) (p : Fin 9 × Fin 9) :
    (candList b p).length ≤ 9 := by
  have h := List.length_filter_le
    (fun value =>
        !checkRowForValue value p.1 b &&
        !checkColumnForValue value p.2 b &&
        !checkSectionForValue value p.1 p.2 b)
    ([1, 2, 3, 4, 5, 6, 7, 8, 9] : List Nat)
  simpa using h

theorem candList_mono (b : Board) (x y : Fin 9) (v : Nat) (q : Fin 9 × Fin 9)
    (h0 : b x y = 0) (w : Nat) (hw : w ∈ candList (setCell b x y v) q) :
    w ∈ candList b q := by
  rw [mem_candList] at hw ⊢
  obtain ⟨hb, hrow, hcol, hbox⟩ := hw
  have hcell : ∀ i j : Fin 9, b i j = w → setCell b x y v i j = w := by
    intro i j hij
    have hne : ¬(i = x ∧ j = y) := by
      rintro ⟨rfl, rfl⟩
      omega
    rw [setCell_of_ne _ _ _ _ _ _ hne]; exact hij
  refine ⟨hb, ?_, ?_, ?_⟩
  · intro c hc; exact hrow c (hcell _ _ hc)
  · intro r hr; exact hcol r (hcell _ _ hr)
  · intro q2 hq1 hq2 hv2; exact hbox q2 hq1 hq2 (hcell _ _ hv2)

/-! ### Unfolding lemmas for the scanning loop -/

theorem bestLoop_nil (board : Board) (best : BoardSpace) :
    bestLoop board [] best =
      if best.possible_values.length = 10 then (true, best) else (false, best) := rfl

theorem bestLoop_cons_skip (board : Board) (p : Fin 9 × Fin 9)
    (rest : List (Fin 9 × Fin 9)) (best : BoardSpace) (hp : ¬board p.1 p.2 = 0) :
    bestLoop board (p :: rest) best = bestLoop board rest best := by
  simp [bestLoop, hp]

theorem bestLoop_cons_dead (board : Board) (p : Fin 9 × Fin 9)
    (rest : List (Fin 9 × Fin 9)) (best : BoardSpace) (hp : board p.1 p.2 = 0)
    (he : (getMoveValues p.1 p.2 board).possible_values = []) :
    bestLoop board (p :: rest) best =
      (false, { best with possible_values := [] }) := by
  simp [bestLoop, hp, he]

theorem bestLoop_cons_one (board : Board) (p : Fin 9 × Fin 9)
    (rest : List (Fin 9 × Fin 9)) (best : BoardSpace) (hp : board p.1 p.2 = 0)
    (hne : ¬(getMoveValues p.1 p.2 board).possible_values = [])
    (h1 : (getMoveValues p.1 p.2 board).possible_values.length = 1) :
    bestLoop board (p :: rest) best = (false, getMoveValues p.1 p.2 board) := by
  simp [bestLoop, hp, hne, h1]

theorem bestLoop_cons_lt (board : Board) (p : Fin 9 × Fin 9)
    (rest : List (Fin 9 × Fin 9)) (best : BoardSpace) (hp : board p.1 p.2 = 0)
    (hne : ¬(getMoveValues p.1 p.2 board).possible_values = [])
    (h1 : ¬(getMoveValues p.1 p.2 board).possible_values.length = 1)
    (hlt : (getMoveValues p.1 p.2 board).possible_values.length <
      best.possible_values.length) :
    bestLoop board (p :: rest) best =
      bestLoop board rest (getMoveValues p.1 p.2 board) := by
  simp [bestLoop, hp, hne, h1, hlt]

theorem bestLoop_cons_ge (board : Board) (p : Fin 9 × Fin 9)
    (rest : List (Fin 9 × Fin 9)) (best : BoardSpace) (hp : board p.1 p.2 = 0)
    (hne : ¬(getMoveValues p.1 p.2 board).possible_values = [])
    (h1 : ¬(getMoveValues p.1 p.2 board).possible_values.length = 1)
    (hlt : ¬(getMoveValues p.1 p.2 board).possible_values.length <
      best.possible_values.length) :
    bestLoop board (p :: rest) best = bestLoop board rest best := by
  simp [bestLoop, hp, hne, h1, hlt]

/-! ### The verdicts of getBestBoardSpace -/

theorem bestLoop_false_of_short (board : Board) (rest : List (Fin 9 × Fin 9))
    (best : BoardSpace) (h : ¬best.possible_values.length = 10) :
    (bestLoop board rest best).1 = false := by
  induction rest generalizing best with
  | nil => simp [bestLoop_nil, h]
  | cons p rest ih =>
    by_cases hp : board p.1 p.2 = 0
    · by_cases he : (getMoveValues p.1 p.2 board).possible_values = []
      · rw [bestLoop_cons_dead board p rest best hp he]
      · by_cases h1 : (getMoveValues p.1 p.2 board).possible_values.length = 1
        · rw [bestLoop_cons_one board p rest best hp he h1]
        · by_cases hlt : (getMoveValues p.1 p.2 board).possible_values.length <
            best.possible_values.length
          · rw [bestLoop_cons_lt board p rest best hp he h1 hlt]
            apply ih
            have h9 : (getMoveValues p.1 p.2 board).possible_values.length ≤ 9 :=
              candList_length_le board p
            omega
          · rw [bestLoop_cons_ge board p rest best hp he h1 hlt]
            exact ih best h
    · rw [bestLoop_cons_skip board p rest best hp]
      exact ih best h

theorem bestLoop_true_iff (board : Board) (rest : List (Fin 9 × Fin 9))
    (best : BoardSpace) (h : best.possible_values.length = 10) :
    (bestLoop board rest best).1 = true ↔ ∀ p ∈ rest, board p.1 p.2 ≠ 0 := by
  induction rest generalizing best with
  | nil => simp [bestLoop_nil, h]
  | cons p rest ih =>
    by_cases hp : board p.1 p.2 = 0
    · constructor
      · intro htrue
        exfalso
        by_cases he : (getMoveValues p.1 p.2 board).possible_values = []
        · rw [bestLoop_cons_dead board p rest best hp he] at htrue
          simp at htrue
        · by_cases h1 : (getMoveValues p.1 p.2 board).possible_values.length = 1
          · rw [bestLoop_cons_one board p rest best hp he h1] at htrue
            simp at htrue
          · have h9 : (getMoveValues p.1 p.2 board).possible_values.length ≤ 9 :=
              candList_length_le board p
            have hlt : (getMoveValues p.1 p.2 board).possible_values.length <
                best.possible_values.length := by omega
            rw [bestLoop_cons_lt board p rest best hp he h1 hlt] at htrue
            rw [bestLoop_false_of_short board rest _ (by omega)] at htrue
            simp at htrue
      · intro hall
        exact absurd hp (hall p (List.mem_cons_self p rest))
    · rw [bestLoop_cons_skip board p rest best hp]
      rw [ih best h]
      constructor
      · intro hall q hq
        rcases List.mem_cons.mp hq with hq | hq
        · subst hq; exact hp
        · exact hall q hq
      · intro hall q hq
        exact hall q (List.mem_cons_of_mem p hq)

theorem getBestBoardSpace_true_iff (b : Board) :
    (getBestBoardSpace b).1 = true ↔ isFull b := by
  rw [getBestBoardSpace, bestLoop_true_iff b cellsRowMajor _ (by simp)]
  constructor
  · intro h i j
    exact h (i, j) (mem_cellsRowMajor (i, j))
  · intro h p _
    exact h p.1 p.2

/-- Invariant of the scan: `best_move` is either still the sentinel or a real
move of an empty cell with at least two candidates. -/
def moveBest (board : Board) (best : BoardSpace) : Prop :=
  board best.x best.y = 0 ∧ best = getMoveValues best.x best.y board ∧
    2 ≤ best.possible_values.length

theorem bestLoop_branch_facts (board : Board) (rest : List (Fin 9 × Fin 9))
    (best : BoardSpace)
    (hb : best.possible_values.length = 10 ∨ moveBest board best)
    (m : BoardSpace) (h : bestLoop board rest best = (false, m))
    (hne : m.possible_values ≠ []) :
    board m.x m.y = 0 ∧ m = getMoveValues m.x m.y board := by
  induction rest generalizing best with
  | nil =>
    rw [bestLoop_nil] at h
    by_cases h10 : best.possible_values.length = 10
    · simp [h10] at h
    · simp only [h10, if_false] at h
      replace h : best = m := congrArg Prod.snd h
      subst h
      rcases hb with hb | hb
      · exact absurd hb h10
      · exact ⟨hb.1, hb.2.1⟩
  | cons p rest ih =>
    by_cases hp : board p.1 p.2 = 0
    · by_cases he : (getMoveValues p.1 p.2 board).possible_values = []
      · rw [bestLoop_cons_dead board p rest best hp he] at h
        replace h : { best with possible_values := [] } = m := congrArg Prod.snd h
        subst h
        simp at hne
      · by_cases h1 : (getMoveValues p.1 p.2 board).possible_values.length = 1
        · rw [bestLoop_cons_one board p rest best hp he h1] at h
          replace h : getMoveValues p.1 p.2 board = m := congrArg Prod.snd h
          subst h
          exact ⟨hp, rfl⟩
        · by_cases hlt : (getMoveValues p.1 p.2 board).possible_values.length <
            best.possible_values.length
          · rw [bestLoop_cons_lt board p rest best hp he h1 hlt] at h
            apply ih _ _ h
            right
            refine ⟨hp, rfl, ?_⟩
            have hpos : 0 < (getMoveValues p.1 p.2 board).possible_values.length :=
              List.length_pos.mpr he
            omega
          · rw [bestLoop_cons_ge board p rest best hp he h1 hlt] at h
            exact ih best hb h
    · rw [bestLoop_cons_skip board p rest best hp] at h
      exact ih best hb h

theorem getBestBoardSpace_branch_facts (b : Board) (m : BoardSpace)
    (h : getBestBoardSpace b = (false, m)) (hne : m.possible_values ≠ []) :
    b m.x m.y = 0 ∧ m = getMoveValues m.x m.y b :=
  bestLoop_branch_facts b cellsRowMajor _ (Or.inl (by simp)) m h hne

/-! ### Unfolding lemmas for the solver -/

theorem getBestBoardSpace_pair (b : Board) (h : (getBestBoardSpace b).1 = false) :
    getBestBoardSpace b = (false, (getBestBoardSpace b).2) := by
  rw [← h]

theorem solveBoardT_zero (b : Board) : solveBoardT 0 b = none := rfl

theorem solveBoardT_succ_solved (fuel : Nat) (b : Board)
    (h : (getBestBoardSpace b).1 = true) :
    solveBoardT (fuel + 1) b = some (true, b, []) := by
  simp [solveBoardT, h]

theorem solveBoardT_succ_dead (fuel : Nat) (b : Board)
    (h : (getBestBoardSpace b).1 = false)
    (he : (getBestBoardSpace b).2.possible_values = []) :
    solveBoardT (fuel + 1) b = some (false, b, []) := by
  simp [solveBoardT, h, he]

theorem solveBoardT_succ_branch (fuel : Nat) (b : Board)
    (h : (getBestBoardSpace b).1 = false)
    (he : (getBestBoardSpace b).2.possible_values ≠ []) :
    solveBoardT (fuel + 1) b =
      tryMovesT (solveBoardT fuel) (getBestBoardSpace b).2.x
        (getBestBoardSpace b).2.y (getBestBoardSpace b).2.possible_values b := by
  simp [solveBoardT, h, he]

theorem tryMovesT_nil (solveRec : Board → Option (Bool × Board × List Board))
    (x y : Fin 9) (board : Board) :
    tryMovesT solveRec x y [] board =
      some (false, setCell board x y 0, [setCell board x y 0]) := rfl

theorem tryMovesT_cons_none (solveRec : Board → Option (Bool × Board × List Board))
    (x y : Fin 9) (v : Nat) (rest : List Nat) (board : Board)
    (h : solveRec (setCell board x y v) = none) :
    tryMovesT solveRec x y (v :: rest) board = none := by
  simp [tryMovesT, h]

theorem tryMovesT_cons_true (solveRec : Board → Option (Bool × Board × List Board))
    (x y : Fin 9) (v : Nat) (rest : List Nat) (board b2 : Board) (tr : List Board)
    (h : solveRec (setCell board x y v) = some (true, b2, tr)) :
    tryMovesT solveRec x y (v :: rest) board =
      some (true, b2, setCell board x y v :: tr) := by
  simp [tryMovesT, h]

theorem tryMovesT_cons_false_none
    (solveRec : Board → Option (Bool × Board × List Board))
    (x y : Fin 9) (v : Nat) (rest : List Nat) (board b2 : Board) (tr : List Board)
    (h : solveRec (setCell board x y v) = some (false, b2, tr))
    (h2 : tryMovesT solveRec x y rest b2 = none) :
    tryMovesT solveRec x y (v :: rest) board = none := by
  simp [tryMovesT, h, h2]

theorem tryMovesT_cons_false_some
    (solveRec : Board → Option (Bool × Board × List Board))
    (x y : Fin 9) (v : Nat) (rest : List Nat) (board b2 : Board) (tr : List Board)
    (ok : Bool) (b3 : Board) (tr2 : List Board)
    (h : solveRec (setCell board x y v) = some (false, b2, tr))
    (h2 : tryMovesT solveRec x y rest b2 = some (ok, b3, tr2)) :
    tryMovesT solveRec x y (v :: rest) board =
      some (ok, b3, setCell board x y v :: (tr ++ tr2)) := by
  simp [tryMovesT, h, h2]

/-! ### Restore on failure and sufficiency of the fuel -/

theorem tryMovesT_restore (fuel : Nat) (x y : Fin 9)
    (hrec : ∀ b2 b3 tr, solveBoardT fuel b2 = some (false, b3, tr) → b3 = b2) :
    ∀ (vs : List Nat) (board b0 br : Board) (tr : List Board),
      setCell board x y 0 = b0 →
      tryMovesT (solveBoardT fuel) x y vs board = some (false, br, tr) → br = b0 := by
  intro vs
  induction vs with
  | nil =>
    intro board b0 br tr h0 h
    rw [tryMovesT_nil] at h
    have hbr : setCell board x y 0 = br := congrArg (fun o => (o.getD (false, b0, [])).2.1) h
    rw [← hbr, h0]
  | cons v rest ih =>
    intro board b0 br tr h0 h
    cases hE : solveBoardT fuel (setCell board x y v) with
    | none =>
      rw [tryMovesT_cons_none _ _ _ _ _ _ hE] at h
      exact absurd h (by simp)
    | some r =>
      obtain ⟨ok2, b2, tr2⟩ := r
      cases ok2 with
      | true =>
        rw [tryMovesT_cons_true _ _ _ _ _ _ _ _ hE] at h
        have : true = false := congrArg (fun o => (o.getD (false, b0, [])).1) h
        exact absurd this (by simp)
      | false =>
        have hb2 : b2 = setCell board x y v := hrec _ _ _ hE
        cases hE2 : tryMovesT (solveBoardT fuel) x y rest b2 with
        | none =>
          rw [tryMovesT_cons_false_none _ _ _ _ _ _ _ _ hE hE2] at h
          exact absurd h (by simp)
        | some r2 =>
          obtain ⟨ok3, b3, tr3⟩ := r2
          rw [tryMovesT_cons_false_some _ _ _ _ _ _ _ _ _ _ _ hE hE2] at h
          have hok : ok3 = false := congrArg (fun o => (o.getD (false, b0, [])).1) h
          have hbr : b3 = br := congrArg (fun o => (o.getD (false, b0, [])).2.1) h
          subst hok
          rw [← hbr]
          apply ih b2 b0 b3 tr3 _ hE2
          rw [hb2, setCell_setCell, h0]

theorem solveBoardT_restore : ∀ (fuel : Nat) (b br : Board) (tr : List Board),
    solveBoardT fuel b = some (false, br, tr) → br = b := by
  intro fuel
  induction fuel with
  | zero =>
    intro b br tr h
    exact absurd h (by simp [solveBoardT_zero])
  | succ fuel ih =>
    intro b br tr h
    by_cases hs : (getBestBoardSpace b).1 = true
    · rw [solveBoardT_succ_solved fuel b hs] at h
      have : true = false := congrArg (fun o => (o.getD (false, b, [])).1) h
      exact absurd this (by simp)
    · have hs' : (getBestBoardSpace b).1 = false := by
        simpa using hs
      by_cases he : (getBestBoardSpace b).2.possible_values = []
      · rw [solveBoardT_succ_dead fuel b hs' he] at h
        exact (congrArg (fun o => (o.getD (false, b, [])).2.1) h).symm
      · rw [solveBoardT_succ_branch fuel b hs' he] at h
        obtain ⟨hxy0, hm⟩ :=
          getBestBoardSpace_branch_facts b _ (getBestBoardSpace_pair b hs') he
        exact tryMovesT_restore fuel _ _ ih _ b b br tr
          (setCell_zero_eq b _ _ hxy0) h

theorem tryMovesT_some (fuel : Nat) (x y : Fin 9)
    (hrec : ∀ b2, emptyCount b2 < fuel → (solveBoardT fuel b2).isSome) :
    ∀ (vs : List Nat) (board b0 : Board),
      setCell board x y 0 = b0 → b0 x y = 0 → (∀ v ∈ vs, v ≠ 0) →
      emptyCount b0 ≤ fuel →
      (tryMovesT (solveBoardT fuel) x y vs board).isSome := by
  intro vs
  induction vs with
  | nil =>
    intro board b0 h0 hb0 hv hfuel
    rw [tryMovesT_nil]
    rfl
  | cons v rest ih =>
    intro board b0 h0 hb0 hv hfuel
    have hsv : setCell board x y v = setCell b0 x y v := by
      rw [← h0, setCell_setCell]
    have hcount : emptyCount (setCell board x y v) < fuel := by
      rw [hsv]
      have := emptyCount_setCell_lt b0 x y v hb0 (hv v (List.mem_cons_self v rest))
      omega
    have hsome := hrec _ hcount
    cases hE : solveBoardT fuel (setCell board x y v) with
    | none => rw [hE] at hsome; exact absurd hsome (by simp)
    | some r =>
      obtain ⟨ok2, b2, tr2⟩ := r
      cases ok2 with
      | true =>
        rw [tryMovesT_cons_true _ _ _ _ _ _ _ _ hE]
        rfl
      | false =>
        have hb2 : b2 = setCell board x y v := solveBoardT_restore fuel _ _ _ hE
        have hih := ih b2 b0 (by rw [hb2, setCell_setCell, h0]) hb0
          (fun w hw => hv w (List.mem_cons_of_mem v hw)) hfuel
        cases hE2 : tryMovesT (solveBoardT fuel) x y rest b2 with
        | none => rw [hE2] at hih; exact absurd hih (by simp)
        | some r2 =>
          obtain ⟨ok3, b3, tr3⟩ := r2
          rw [tryMovesT_cons_false_some _ _ _ _ _ _ _ _ _ _ _ hE hE2]
          rfl

theorem solveBoardT_some : ∀ (fuel : Nat) (b : Board), emptyCount b < fuel →
    (solveBoardT fuel b).isSome := by
  intro fuel
  induction fuel with
  | zero => intro b h; omega
  | succ fuel ih =>
    intro b h
    by_cases hs : (getBestBoardSpace b).1 = true
    · rw [solveBoardT_succ_solved fuel b hs]; rfl
    · have hs' : (getBestBoardSpace b).1 = false := by simpa using hs
      by_cases he : (getBestBoardSpace b).2.possible_values = []
      · rw [solveBoardT_succ_dead fuel b hs' he]; rfl
      · rw [solveBoardT_succ_branch fuel b hs' he]
        obtain ⟨hxy0, hm⟩ :=
          getBestBoardSpace_branch_facts b _ (getBestBoardSpace_pair b hs') he
        apply tryMovesT_some fuel _ _ ih _ b b (setCell_zero_eq b _ _ hxy0) hxy0
        · intro v hv
          rw [hm, mem_getMoveValues] at hv
          omega
        · omega

theorem solveBoard_eq_of (b : Board) (ok : Bool) (b2 : Board) (tr : List Board)
    (h : solveBoardT (emptyCount b + 1) b = some (ok, b2, tr)) :
    solveBoard b = (ok, b2) := by
  unfold solveBoard
  rw [h]

theorem solveBoard_run (b : Board) :
    ∃ ok b2 tr, solveBoardT (emptyCount b + 1) b = some (ok, b2, tr) ∧
      solveBoard b = (ok, b2) := by
  have h := solveBoardT_some (emptyCount b + 1) b (by omega)
  obtain ⟨r, hr⟩ := Option.isSome_iff_exists.mp h
  obtain ⟨ok, b2, tr⟩ := r
  exact ⟨ok, b2, tr, hr, solveBoard_eq_of b ok b2 tr hr⟩

/-! ### A successful solve returns a full board -/

theorem tryMovesT_full (fuel : Nat) (x y : Fin 9)
    (hrec : ∀ b2 b3 tr, solveBoardT fuel b2 = some (true, b3, tr) → isFull b3) :
    ∀ (vs : List Nat) (board b3 : Board) (tr : List Board),
      tryMovesT (solveBoardT fuel) x y vs board = some (true, b3, tr) →
      isFull b3 := by
  intro vs
  induction vs with
  | nil =>
    intro board b3 tr h
    rw [tryMovesT_nil] at h
    have : false = true := congrArg (fun o => (o.getD (true, b3, [])).1) h
    exact absurd this (by simp)
  | cons v rest ih =>
    intro board b3 tr h
    cases hE : solveBoardT fuel (setCell board x y v) with
    | none =>
      rw [tryMovesT_cons_none _ _ _ _ _ _ hE] at h
      exact absurd h (by simp)
    | some r =>
      obtain ⟨ok2, b2, tr2⟩ := r
      cases ok2 with
      | true =>
        rw [tryMovesT_cons_true _ _ _ _ _ _ _ _ hE] at h
        have hb : b2 = b3 := congrArg (fun o => (o.getD (true, b3, [])).2.1) h
        subst hb
        exact hrec _ _ _ hE
      | false =>
        cases hE2 : tryMovesT (solveBoardT fuel) x y rest b2 with
        | none =>
          rw [tryMovesT_cons_false_none _ _ _ _ _ _ _ _ hE hE2] at h
          exact absurd h (by simp)
        | some r2 =>
          obtain ⟨ok3, b4, tr3⟩ := r2
          rw [tryMovesT_cons_false_some _ _ _ _ _ _ _ _ _ _ _ hE hE2] at h
          have hok : ok3 = true := congrArg (fun o => (o.getD (true, b3, [])).1) h
          have hb : b4 = b3 := congrArg (fun o => (o.getD (true, b3, [])).2.1) h
          subst hok; subst hb
          exact ih _ _ _ hE2

theorem solveBoardT_full : ∀ (fuel : Nat) (b b3 : Board) (tr : List Board),
    solveBoardT fuel b = some (true, b3, tr) → isFull b3 := by
  intro fuel
  induction fuel with
  | zero =>
    intro b b3 tr h
    exact absurd h (by simp [solveBoardT_zero])
  | succ fuel ih =>
    intro b b3 tr h
    by_cases hs : (getBestBoardSpace b).1 = true
    · rw [solveBoardT_succ_solved fuel b hs] at h
      have hb : b = b3 := congrArg (fun o => (o.getD (true, b3, [])).2.1) h
      subst hb
      exact (getBestBoardSpace_true_iff b).mp hs
    · have hs' : (getBestBoardSpace b).1 = false := by simpa using hs
      by_cases he : (getBestBoardSpace b).2.possible_values = []
      · rw [solveBoardT_succ_dead fuel b hs' he] at h
        have : false = true := congrArg (fun o => (o.getD (true, b3, [])).1) h
        exact absurd this (by simp)
      · rw [solveBoardT_succ_branch fuel b hs' he] at h
        exact tryMovesT_full fuel _ _ ih _ b b3 tr h

/-! ### The solver's writes keep the board conflict-free and in range -/

theorem setCell_apply (b : Board) (x y i j : Fin 9) (v : Nat) :
    setCell b x y v i j = if i = x ∧ j = y then v else b i j := by
  unfold setCell
  by_cases hx : i = x <;> by_cases hy : j = y <;> simp [hx, hy]

theorem conflictFree_place (b : Board) (x y : Fin 9) (v : Nat)
    (hb : conflictFree b) (h0 : b x y = 0)
    (hv : v ∈ (getMoveValues x y b).possible_values) :
    conflictFree (setCell b x y v) := by
  obtain ⟨⟨hv1, hv9⟩, hrow, hcol, hbox⟩ := (mem_candList b (x, y) v).mp hv
  intro p q hne hunit hp0
  by_cases hp : p.1 = x ∧ p.2 = y
  · by_cases hq : q.1 = x ∧ q.2 = y
    · exact absurd (Prod.ext (hp.1.trans hq.1.symm) (hp.2.trans hq.2.symm)) hne
    · rw [setCell_apply, if_pos hp, setCell_apply, if_neg hq]
      intro hcontra
      rcases hunit with hu | hu | hu
      · exact hrow q.2 (by rw [← hp.1, hu]; exact hcontra.symm)
      · exact hcol q.1 (by rw [← hp.2, hu]; exact hcontra.symm)
      · refine hbox q ?_ ?_ hcontra.symm
        · rw [← hu.1, hp.1]
        · rw [← hu.2, hp.2]
  · by_cases hq : q.1 = x ∧ q.2 = y
    · rw [setCell_apply, if_neg hp] at hp0 ⊢
      rw [setCell_apply, if_pos hq]
      intro hcontra
      rcases hunit with hu | hu | hu
      · exact hrow p.2 (by rw [← hq.1, ← hu]; exact hcontra)
      · exact hcol p.1 (by rw [← hq.2, ← hu]; exact hcontra)
      · refine hbox p ?_ ?_ hcontra
        · rw [hu.1, hq.1]
        · rw [hu.2, hq.2]
    · rw [setCell_apply, if_neg hp] at hp0 ⊢
      rw [setCell_apply, if_neg hq]
      exact hb p q hne hunit hp0

theorem conflictFree_clear (b : Board) (x y : Fin 9) (hb : conflictFree b) :
    conflictFree (setCell b x y 0) := by
  intro p q hne hunit hp0
  by_cases hp : p.1 = x ∧ p.2 = y
  · rw [setCell_apply, if_pos hp] at hp0
    exact absurd rfl hp0
  · by_cases hq : q.1 = x ∧ q.2 = y
    · rw [setCell_apply, if_neg hp] at hp0 ⊢
      rw [setCell_apply, if_pos hq]
      omega
    · rw [setCell_apply, if_neg hp] at hp0 ⊢
      rw [setCell_apply, if_neg hq]
      exact hb p q hne hunit hp0

theorem inRange_setCell (b : Board) (x y : Fin 9) (v : Nat)
    (hb : inRange b) (hv : v ≤ 9) : inRange (setCell b x y v) := by
  intro i j
  rw [setCell_apply]
  by_cases h : i = x ∧ j = y
  · rw [if_pos h]; exact hv
  · rw [if_neg h]; exact hb i j

theorem tryMovesT_preserve (fuel : Nat) (x y : Fin 9)
    (hrec : ∀ b2 ok2 b3 tr, solveBoardT fuel b2 = some (ok2, b3, tr) →
      conflictFree b2 → inRange b2 →
      (conflictFree b3 ∧ inRange b3) ∧ ∀ c ∈ tr, conflictFree c ∧ inRange c) :
    ∀ (vs : List Nat) (board b0 : Board) (ok : Bool) (b3 : Board) (tr : List Board),
      setCell board x y 0 = b0 → b0 x y = 0 →
      conflictFree b0 → inRange b0 →
      (∀ v ∈ vs, v ∈ (getMoveValues x y b0).possible_values) →
      tryMovesT (solveBoardT fuel) x y vs board = some (ok, b3, tr) →
      (conflictFree b3 ∧ inRange b3) ∧ ∀ c ∈ tr, conflictFree c ∧ inRange c := by
  intro vs
  induction vs with
  | nil =>
    intro board b0 ok b3 tr h0 hb0 hcf hir hv h
    rw [tryMovesT_nil] at h
    simp only [Option.some.injEq, Prod.mk.injEq] at h
    obtain ⟨-, hb, htr⟩ := h
    rw [← hb, h0]
    rw [← htr]
    refine ⟨⟨hcf, hir⟩, ?_⟩
    intro c hc
    rw [List.mem_singleton] at hc
    rw [hc, h0]
    exact ⟨hcf, hir⟩
  | cons v rest ih =>
    intro board b0 ok b3 tr h0 hb0 hcf hir hv h
    have hsv : setCell board x y v = setCell b0 x y v := by
      rw [← h0, setCell_setCell]
    have hvmem : v ∈ (getMoveValues x y b0).possible_values :=
      hv v (List.mem_cons_self v rest)
    have hv9 : v ≤ 9 := ((mem_getMoveValues v x y b0).mp hvmem).1.2
    have hcf1 : conflictFree (setCell board x y v) := by
      rw [hsv]; exact conflictFree_place b0 x y v hcf hb0 hvmem
    have hir1 : inRange (setCell board x y v) := by
      rw [hsv]; exact inRange_setCell b0 x y v hir hv9
    cases hE : solveBoardT fuel (setCell board x y v) with
    | none =>
      rw [tryMovesT_cons_none _ _ _ _ _ _ hE] at h
      exact absurd h (by simp)
    | some r =>
      obtain ⟨ok2, b2, tr2⟩ := r
      have hgood2 := hrec _ _ _ _ hE hcf1 hir1
      cases ok2 with
      | true =>
        rw [tryMovesT_cons_true _ _ _ _ _ _ _ _ hE] at h
        simp only [Option.some.injEq, Prod.mk.injEq] at h
        obtain ⟨-, hb, htr⟩ := h
        rw [← hb, ← htr]
        refine ⟨hgood2.1, ?_⟩
        intro c hc
        rcases List.mem_cons.mp hc with hc | hc
        · rw [hc]; exact ⟨hcf1, hir1⟩
        · exact hgood2.2 c hc
      | false =>
        have hb2 : b2 = setCell board x y v := solveBoardT_restore fuel _ _ _ hE
        cases hE2 : tryMovesT (solveBoardT fuel) x y rest b2 with
        | none =>
          rw [tryMovesT_cons_false_none _ _ _ _ _ _ _ _ hE hE2] at h
          exact absurd h (by simp)
        | some r2 =>
          obtain ⟨ok3, b4, tr3⟩ := r2
          rw [tryMovesT_cons_false_some _ _ _ _ _ _ _ _ _ _ _ hE hE2] at h
          simp only [Option.some.injEq, Prod.mk.injEq] at h
          obtain ⟨-, hb, htr⟩ := h
          have hihres := ih b2 b0 ok3 b4 tr3
            (by rw [hb2, setCell_setCell, h0]) hb0 hcf hir
            (fun w hw => hv w (List.mem_cons_of_mem v hw)) hE2
          rw [← hb, ← htr]
          refine ⟨hihres.1, ?_⟩
          intro c hc
          rcases List.mem_cons.mp hc with hc | hc
          · rw [hc]; exact ⟨hcf1, hir1⟩
          · rcases List.mem_append.mp hc with hc | hc
            · exact hgood2.2 c hc
            · exact hihres.2 c hc

theorem solveBoardT_preserve : ∀ (fuel : Nat) (b : Board) (ok : Bool) (b3 : Board)
    (tr : List Board), solveBoardT fuel b = some (ok, b3, tr) →
    conflictFree b → inRange b →
    (conflictFree b3 ∧ inRange b3) ∧ ∀ c ∈ tr, conflictFree c ∧ inRange c := by
  intro fuel
  induction fuel with
  | zero =>
    intro b ok b3 tr h
    exact absurd h (by simp [solveBoardT_zero])
  | succ fuel ih =>
    intro b ok b3 tr h hcf hir
    by_cases hs : (getBestBoardSpace b).1 = true
    · rw [solveBoardT_succ_solved fuel b hs] at h
      simp only [Option.some.injEq, Prod.mk.injEq] at h
      obtain ⟨-, hb, htr⟩ := h
      rw [← hb, ← htr]
      exact ⟨⟨hcf, hir⟩, by simp⟩
    · have hs' : (getBestBoardSpace b).1 = false := by simpa using hs
      by_cases he : (getBestBoardSpace b).2.possible_values = []
      · rw [solveBoardT_succ_dead fuel b hs' he] at h
        simp only [Option.some.injEq, Prod.mk.injEq] at h
        obtain ⟨-, hb, htr⟩ := h
        rw [← hb, ← htr]
        exact ⟨⟨hcf, hir⟩, by simp⟩
      · rw [solveBoardT_succ_branch fuel b hs' he] at h
        obtain ⟨hxy0, hm⟩ :=
          getBestBoardSpace_branch_facts b _ (getBestBoardSpace_pair b hs') he
        exact tryMovesT_preserve fuel _ _ ih _ b b ok b3 tr
          (setCell_zero_eq b _ _ hxy0) hxy0 hcf hir
          (fun w hw => by rw [hm] at hw; exact hw) h

/-! ### A board with a zero-candidate empty cell can never be solved -/

theorem candList_nil_of_sub (b1 b0 : Board) (p : Fin 9 × Fin 9)
    (hsub : ∀ w ∈ candList b1 p, w ∈ candList b0 p) (h : candList b0 p = []) :
    candList b1 p = [] := by
  rw [List.eq_nil_iff_forall_not_mem]
  intro w hw
  have := hsub w hw
  rw [h] at this
  exact absurd this (List.not_mem_nil w)

theorem tryMovesT_never_true (fuel : Nat) (x y : Fin 9) (b0 : Board)
    (p : Fin 9 × Fin 9)
    (hrec : ∀ b2 : Board, (∃ q : Fin 9 × Fin 9, b2 q.1 q.2 = 0 ∧ candList b2 q = []) →
      ∀ ok b3 tr, solveBoardT fuel b2 = some (ok, b3, tr) → ok = false)
    (hb0 : b0 x y = 0) (hp0 : b0 p.1 p.2 = 0) (hpc : candList b0 p = [])
    (hpne : ¬(p.1 = x ∧ p.2 = y)) :
    ∀ (vs : List Nat) (board : Board) (ok : Bool) (b3 : Board) (tr : List Board),
      setCell board x y 0 = b0 →
      tryMovesT (solveBoardT fuel) x y vs board = some (ok, b3, tr) →
      ok = false := by
  intro vs
  induction vs with
  | nil =>
    intro board ok b3 tr h0 h
    rw [tryMovesT_nil] at h
    exact (congrArg (fun o => (o.getD (false, b3, [])).1) h).symm
  | cons v rest ih =>
    intro board ok b3 tr h0 h
    have hsv : setCell board x y v = setCell b0 x y v := by
      rw [← h0, setCell_setCell]
    have hdead1 : ∃ q : Fin 9 × Fin 9,
        setCell board x y v q.1 q.2 = 0 ∧ candList (setCell board x y v) q = [] := by
      refine ⟨p, ?_, ?_⟩
      · rw [hsv, setCell_apply, if_neg hpne]; exact hp0
      · rw [hsv]
        exact candList_nil_of_sub _ b0 p
          (fun w hw => candList_mono b0 x y v p hb0 w hw) hpc
    cases hE : solveBoardT fuel (setCell board x y v) with
    | none =>
      rw [tryMovesT_cons_none _ _ _ _ _ _ hE] at h
      exact absurd h (by simp)
    | some r =>
      obtain ⟨ok2, b2, tr2⟩ := r
      have hok2 : ok2 = false := hrec _ hdead1 _ _ _ hE
      subst hok2
      have hb2 : b2 = setCell board x y v := solveBoardT_restore fuel _ _ _ hE
      cases hE2 : tryMovesT (solveBoardT fuel) x y rest b2 with
      | none =>
        rw [tryMovesT_cons_false_none _ _ _ _ _ _ _ _ hE hE2] at h
        exact absurd h (by simp)
      | some r2 =>
        obtain ⟨ok3, b4, tr3⟩ := r2
        rw [tryMovesT_cons_false_some _ _ _ _ _ _ _ _ _ _ _ hE hE2] at h
        have hok : ok3 = ok := congrArg (fun o => (o.getD (false, b3, [])).1) h
        rw [← hok]
        exact ih b2 ok3 b4 tr3 (by rw [hb2, setCell_setCell, h0]) hE2

theorem solveBoardT_dead_false : ∀ (fuel : Nat) (b : Board),
    (∃ q : Fin 9 × Fin 9, b q.1 q.2 = 0 ∧ candList b q = []) →
    ∀ ok b3 tr, solveBoardT fuel b = some (ok, b3, tr) → ok = false := by
  intro fuel
  induction fuel with
  | zero =>
    intro b hdead ok b3 tr h
    exact absurd h (by simp [solveBoardT_zero])
  | succ fuel ih =>
    intro b hdead ok b3 tr h
    obtain ⟨p, hp0, hpc⟩ := hdead
    have hnotfull : ¬isFull b := fun hf => hf p.1 p.2 hp0
    have hs' : (getBestBoardSpace b).1 = false := by
      rcases Bool.eq_false_or_eq_true (getBestBoardSpace b).1 with h1 | h1
      · exact absurd ((getBestBoardSpace_true_iff b).mp h1) hnotfull
      · exact h1
    by_cases he : (getBestBoardSpace b).2.possible_values = []
    · rw [solveBoardT_succ_dead fuel b hs' he] at h
      exact (congrArg (fun o => (o.getD (false, b3, [])).1) h).symm
    · rw [solveBoardT_succ_branch fuel b hs' he] at h
      obtain ⟨hxy0, hm⟩ :=
        getBestBoardSpace_branch_facts b _ (getBestBoardSpace_pair b hs') he
      have hpne : ¬(p.1 = (getBestBoardSpace b).2.x ∧ p.2 = (getBestBoardSpace b).2.y) := by
        rintro ⟨h1, h2⟩
        apply he
        rw [hm, ← h1, ← h2]
        exact hpc
      exact tryMovesT_never_true fuel _ _ b p ih hxy0 hp0 hpc hpne
        _ b ok b3 tr (setCell_zero_eq b _ _ hxy0) h

/-! ### Completeness: a solvable board is solved -/

theorem completion_mem_candList (b s : Board) (hc : isCompletion b s)
    (x y : Fin 9) (h0 : b x y = 0) : s x y ∈ candList b (x, y) := by
  obtain ⟨hext, hfull, hir, hcf⟩ := hc
  rw [mem_candList]
  have h1 : 1 ≤ s x y := Nat.one_le_iff_ne_zero.mpr (hfull x y)
  have h9 : s x y ≤ 9 := hir x y
  refine ⟨⟨h1, h9⟩, ?_, ?_, ?_⟩
  · show ∀ c, b x c ≠ s x y
    intro c hcell
    have hbc : b x c ≠ 0 := by omega
    have hsc : s x c = b x c := hext x c hbc
    have hne : (x, c) ≠ (x, y) := by
      intro hEq
      have : c = y := congrArg Prod.snd hEq
      rw [this] at hbc; exact hbc h0
    have hdiff : s x c ≠ s x y :=
      hcf (x, c) (x, y) hne (Or.inl rfl) (show s x c ≠ 0 by omega)
    apply hdiff
    rw [hsc, hcell]
  · show ∀ r, b r y ≠ s x y
    intro r hcell
    have hbr : b r y ≠ 0 := by omega
    have hsr : s r y = b r y := hext r y hbr
    have hne : (r, y) ≠ (x, y) := by
      intro hEq
      have : r = x := congrArg Prod.fst hEq
      rw [this] at hbr; exact hbr h0
    have hdiff : s r y ≠ s x y :=
      hcf (r, y) (x, y) hne (Or.inr (Or.inl rfl)) (show s r y ≠ 0 by omega)
    apply hdiff
    rw [hsr, hcell]
  · show ∀ q : Fin 9 × Fin 9, q.1.val / 3 = x.val / 3 → q.2.val / 3 = y.val / 3 →
      b q.1 q.2 ≠ s x y
    intro q hq1 hq2 hcell
    have hbq : b q.1 q.2 ≠ 0 := by omega
    have hsq : s q.1 q.2 = b q.1 q.2 := hext q.1 q.2 hbq
    have hne : q ≠ (x, y) := by
      intro hEq
      rw [hEq] at hbq; exact hbq h0
    have hdiff : s q.1 q.2 ≠ s x y :=
      hcf q (x, y) hne (Or.inr (Or.inr ⟨hq1, hq2⟩)) (show s q.1 q.2 ≠ 0 by omega)
    apply hdiff
    rw [hsq, hcell]

theorem isCompletion_setCell (b s : Board) (hc : isCompletion b s) (x y : Fin 9)
    (h0 : b x y = 0) : isCompletion (setCell b x y (s x y)) s := by
  obtain ⟨hext, hfull, hir, hcf⟩ := hc
  refine ⟨?_, hfull, hir, hcf⟩
  intro i j hij
  rw [setCell_apply] at hij ⊢
  by_cases hp : i = x ∧ j = y
  · rw [if_pos hp]
    rw [hp.1, hp.2]
  · rw [if_neg hp] at hij ⊢
    exact hext i j hij

theorem bestLoop_dead_exists (board : Board) (rest : List (Fin 9 × Fin 9)) :
    ∀ (best : BoardSpace), best.possible_values ≠ [] →
    ∀ m, bestLoop board rest best = (false, m) → m.possible_values = [] →
    ∃ p ∈ rest, board p.1 p.2 = 0 ∧ candList board p = [] := by
  induction rest with
  | nil =>
    intro best hbne m h hm
    rw [bestLoop_nil] at h
    by_cases h10 : best.possible_values.length = 10
    · rw [if_pos h10] at h
      have : true = false := congrArg Prod.fst h
      exact absurd this (by simp)
    · rw [if_neg h10] at h
      have : best = m := congrArg Prod.snd h
      rw [← this] at hm
      exact absurd hm hbne
  | cons p rest ih =>
    intro best hbne m h hm
    by_cases hp : board p.1 p.2 = 0
    · by_cases he : (getMoveValues p.1 p.2 board).possible_values = []
      · exact ⟨p, List.mem_cons_self p rest, hp, he⟩
      · by_cases h1 : (getMoveValues p.1 p.2 board).possible_values.length = 1
        · rw [bestLoop_cons_one board p rest best hp he h1] at h
          have : getMoveValues p.1 p.2 board = m := congrArg Prod.snd h
          rw [← this] at hm
          exact absurd hm he
        · by_cases hlt : (getMoveValues p.1 p.2 board).possible_values.length <
            best.possible_values.length
          · rw [bestLoop_cons_lt board p rest best hp he h1 hlt] at h
            obtain ⟨q, hq, hq0, hqc⟩ := ih _ he m h hm
            exact ⟨q, List.mem_cons_of_mem p hq, hq0, hqc⟩
          · rw [bestLoop_cons_ge board p rest best hp he h1 hlt] at h
            obtain ⟨q, hq, hq0, hqc⟩ := ih best hbne m h hm
            exact ⟨q, List.mem_cons_of_mem p hq, hq0, hqc⟩
    · rw [bestLoop_cons_skip board p rest best hp] at h
      obtain ⟨q, hq, hq0, hqc⟩ := ih best hbne m h hm
      exact ⟨q, List.mem_cons_of_mem p hq, hq0, hqc⟩

theorem tryMovesT_complete (fuel : Nat) (x y : Fin 9) (b0 : Board)
    (hrec_complete : ∀ b2, emptyCount b2 < fuel → Solvable b2 →
      ∀ ok2 b3 tr, solveBoardT fuel b2 = some (ok2, b3, tr) → ok2 = true)
    (hb0 : b0 x y = 0) (hfuel : emptyCount b0 ≤ fuel) :
    ∀ (vs : List Nat) (board : Board),
      setCell board x y 0 = b0 →
      (∀ v ∈ vs, v ≠ 0) →
      (∃ v ∈ vs, Solvable (setCell b0 x y v)) →
      ∀ ok b3 tr, tryMovesT (solveBoardT fuel) x y vs board = some (ok, b3, tr) →
        ok = true := by
  intro vs
  induction vs with
  | nil =>
    intro board h0 hnz hwit ok b3 tr h
    obtain ⟨v, hv, -⟩ := hwit
    exact absurd hv (List.not_mem_nil v)
  | cons v rest ih =>
    intro board h0 hnz hwit ok b3 tr h
    have hsv : setCell board x y v = setCell b0 x y v := by
      rw [← h0, setCell_setCell]
    have hcount : emptyCount (setCell board x y v) < fuel := by
      rw [hsv]
      have := emptyCount_setCell_lt b0 x y v hb0 (hnz v (List.mem_cons_self v rest))
      omega
    cases hE : solveBoardT fuel (setCell board x y v) with
    | none =>
      rw [tryMovesT_cons_none _ _ _ _ _ _ hE] at h
      exact absurd h (by simp)
    | some r =>
      obtain ⟨ok2, b2, tr2⟩ := r
      cases ok2 with
      | true =>
        rw [tryMovesT_cons_true _ _ _ _ _ _ _ _ hE] at h
        exact (congrArg (fun o => (o.getD (true, b3, [])).1) h).symm
      | false =>
        have hnothead : ¬Solvable (setCell b0 x y v) := by
          intro hsol
          have : false = true := by
            apply hrec_complete (setCell board x y v) hcount _ false b2 tr2 hE
            rw [hsv]; exact hsol
          exact absurd this (by simp)
        have hwit2 : ∃ w ∈ rest, Solvable (setCell b0 x y w) := by
          obtain ⟨w, hwmem, hwsol⟩ := hwit
          rcases List.mem_cons.mp hwmem with hw | hw
          · rw [hw] at hwsol
            exact absurd hwsol hnothead
          · exact ⟨w, hw, hwsol⟩
        have hb2 : b2 = setCell board x y v := solveBoardT_restore fuel _ _ _ hE
        cases hE2 : tryMovesT (solveBoardT fuel) x y rest b2 with
        | none =>
          rw [tryMovesT_cons_false_none _ _ _ _ _ _ _ _ hE hE2] at h
          exact absurd h (by simp)
        | some r2 =>
          obtain ⟨ok3, b4, tr3⟩ := r2
          rw [tryMovesT_cons_false_some _ _ _ _ _ _ _ _ _ _ _ hE hE2] at h
          have hok : ok3 = ok := congrArg (fun o => (o.getD (false, b3, [])).1) h
          rw [← hok]
          exact ih b2 (by rw [hb2, setCell_setCell, h0])
            (fun w hw => hnz w (List.mem_cons_of_mem v hw)) hwit2 ok3 b4 tr3 hE2

theorem solveBoardT_complete : ∀ (fuel : Nat) (b : Board), emptyCount b < fuel →
    Solvable b → ∀ ok b3 tr, solveBoardT fuel b = some (ok, b3, tr) → ok = true := by
  intro fuel
  induction fuel with
  | zero => intro b h; omega
  | succ fuel ih =>
    intro b hfuel hsolv ok b3 tr h
    by_cases hs : (getBestBoardSpace b).1 = true
    · rw [solveBoardT_succ_solved fuel b hs] at h
      exact (congrArg (fun o => (o.getD (true, b3, [])).1) h).symm
    · have hs' : (getBestBoardSpace b).1 = false := by simpa using hs
      obtain ⟨s, hcs⟩ := hsolv
      by_cases he : (getBestBoardSpace b).2.possible_values = []
      · exfalso
        obtain ⟨p, -, hp0, hpc⟩ := bestLoop_dead_exists b cellsRowMajor
          ⟨0, 0, List.range 10⟩ (by decide) _
          (getBestBoardSpace_pair b hs') he
        have hmem : s p.1 p.2 ∈ candList b (p.1, p.2) :=
          completion_mem_candList b s hcs p.1 p.2 hp0
        rw [show (p.1, p.2) = p from rfl, hpc] at hmem
        exact absurd hmem (List.not_mem_nil _)
      · rw [solveBoardT_succ_branch fuel b hs' he] at h
        obtain ⟨hxy0, hm⟩ :=
          getBestBoardSpace_branch_facts b _ (getBestBoardSpace_pair b hs') he
        apply tryMovesT_complete fuel _ _ b ih hxy0 (by omega) _ b
          (setCell_zero_eq b _ _ hxy0) _ _ ok b3 tr h
        · intro v hv
          rw [hm, mem_getMoveValues] at hv
          omega
        · refine ⟨s (getBestBoardSpace b).2.x (getBestBoardSpace b).2.y, ?_, ?_⟩
          · rw [hm]
            exact completion_mem_candList b s hcs _ _ hxy0
          · exact ⟨s, isCompletion_setCell b s hcs _ _ hxy0⟩

/-! ### A full, in-range, conflict-free board is solved in the
exactly-once sense -/

theorem isSolvedBoard_of (b : Board) (hfull : isFull b) (hir : inRange b)
    (hcf : conflictFree b) : isSolvedBoard b := by
  have hlt : ∀ i j : Fin 9, b i j - 1 < 9 := by
    intro i j
    have h1 := hfull i j
    have h2 := hir i j
    omega
  refine ⟨?_, ?_, ?_⟩
  · intro r v
    have hinj : Function.Injective
        (fun c : Fin 9 => (⟨b r c - 1, hlt r c⟩ : Fin 9)) := by
      intro c1 c2 hEq
      by_contra hne
      have hv : b r c1 - 1 = b r c2 - 1 := congrArg Fin.val hEq
      have h1 := hfull r c1
      have h2 := hfull r c2
      have heq2 : b r c1 = b r c2 := by omega
      exact hcf (r, c1) (r, c2) (fun hp => hne (congrArg Prod.snd hp))
        (Or.inl rfl) h1 heq2
    have hsurj := (Finite.injective_iff_bijective.mp hinj).2
    obtain ⟨c, hc⟩ := hsurj v
    have hval : b r c - 1 = v.val := congrArg Fin.val hc
    have hful := hfull r c
    refine ⟨c, by omega, ?_⟩
    intro c2 hc2
    apply hinj
    apply Fin.ext
    show b r c2 - 1 = b r c - 1
    omega
  · intro c v
    have hinj : Function.Injective
        (fun r : Fin 9 => (⟨b r c - 1, hlt r c⟩ : Fin 9)) := by
      intro r1 r2 hEq
      by_contra hne
      have hv : b r1 c - 1 = b r2 c - 1 := congrArg Fin.val hEq
      have h1 := hfull r1 c
      have h2 := hfull r2 c
      have heq2 : b r1 c = b r2 c := by omega
      exact hcf (r1, c) (r2, c) (fun hp => hne (congrArg Prod.fst hp))
        (Or.inr (Or.inl rfl)) h1 heq2
    have hsurj := (Finite.injective_iff_bijective.mp hinj).2
    obtain ⟨r, hr⟩ := hsurj v
    have hval : b r c - 1 = v.val := congrArg Fin.val hr
    have hful := hfull r c
    refine ⟨r, by omega, ?_⟩
    intro r2 hr2
    apply hinj
    apply Fin.ext
    show b r2 c - 1 = b r c - 1
    omega
  · intro bx bz v
    have hbox_ne : ∀ d1 d2 : Fin 3 × Fin 3, d1 ≠ d2 →
        ((boxIdx bx d1.1, boxIdx bz d1.2) : Fin 9 × Fin 9) ≠
          (boxIdx bx d2.1, boxIdx bz d2.2) := by
      intro d1 d2 hne hEq
      apply hne
      have h1 : boxIdx bx d1.1 = boxIdx bx d2.1 := congrArg Prod.fst hEq
      have h2 : boxIdx bz d1.2 = boxIdx bz d2.2 := congrArg Prod.snd hEq
      have hv1 : 3 * bx.val + d1.1.val = 3 * bx.val + d2.1.val :=
        congrArg Fin.val h1
      have hv2 : 3 * bz.val + d1.2.val = 3 * bz.val + d2.2.val :=
        congrArg Fin.val h2
      apply Prod.ext
      · apply Fin.ext; omega
      · apply Fin.ext; omega
    have hsame1 : ∀ d : Fin 3, (boxIdx bx d).val / 3 = bx.val := by
      intro d
      show (3 * bx.val + d.val) / 3 = bx.val
      have := d.isLt
      omega
    have hsame2 : ∀ d : Fin 3, (boxIdx bz d).val / 3 = bz.val := by
      intro d
      show (3 * bz.val + d.val) / 3 = bz.val
      have := d.isLt
      omega
    have hinj : Function.Injective (fun d : Fin 3 × Fin 3 =>
        (⟨b (boxIdx bx d.1) (boxIdx bz d.2) - 1, hlt _ _⟩ : Fin 9)) := by
      intro d1 d2 hEq
      by_contra hne
      have hv : b (boxIdx bx d1.1) (boxIdx bz d1.2) - 1 =
          b (boxIdx bx d2.1) (boxIdx bz d2.2) - 1 := congrArg Fin.val hEq
      have h1 := hfull (boxIdx bx d1.1) (boxIdx bz d1.2)
      have h2 := hfull (boxIdx bx d2.1) (boxIdx bz d2.2)
      have heq2 : b (boxIdx bx d1.1) (boxIdx bz d1.2) =
          b (boxIdx bx d2.1) (boxIdx bz d2.2) := by omega
      refine hcf (boxIdx bx d1.1, boxIdx bz d1.2) (boxIdx bx d2.1, boxIdx bz d2.2)
        (hbox_ne d1 d2 hne) (Or.inr (Or.inr ⟨?_, ?_⟩)) h1 heq2
      · show (boxIdx bx d1.1).val / 3 = (boxIdx bx d2.1).val / 3
        rw [hsame1 d1.1, hsame1 d2.1]
      · show (boxIdx bz d1.2).val / 3 = (boxIdx bz d2.2).val / 3
        rw [hsame2 d1.2, hsame2 d2.2]
    have hbij := (Fintype.bijective_iff_injective_and_card _).mpr ⟨hinj, by simp⟩
    obtain ⟨d, hd⟩ := hbij.2 v
    have hval : b (boxIdx bx d.1) (boxIdx bz d.2) - 1 = v.val := congrArg Fin.val hd
    have hful := hfull (boxIdx bx d.1) (boxIdx bz d.2)
    refine ⟨d, by omega, ?_⟩
    intro d2 hd2
    apply hinj
    apply Fin.ext
    show b (boxIdx bx d2.1) (boxIdx bz d2.2) - 1 =
      b (boxIdx bx d.1) (boxIdx bz d.2) - 1
    omega

/-! ### Characterizing the dead-end verdict of the scan -/

theorem cons_eq_append_cons {α : Type} (a : α) (t l1 l2 : List α) (p : α)
    (h : a :: t = l1 ++ p :: l2) :
    (l1 = [] ∧ p = a ∧ l2 = t) ∨ (∃ l1', l1 = a :: l1' ∧ t = l1' ++ p :: l2) := by
  cases l1 with
  | nil => simp_all
  | cons b l1' => simp_all

/-- The row-major scan hits a zero-candidate empty cell before any empty cell
with fewer than two candidates: `l` splits as a prefix of empty cells that all
have at least two candidates, followed by an empty cell with no candidate. -/
def deadEndScan (board : Board) (l : List (Fin 9 × Fin 9)) : Prop :=
  ∃ l1 p l2, l = l1 ++ p :: l2 ∧ candList board p = [] ∧
    ∀ q ∈ l1, 2 ≤ (candList board q).length

theorem deadEndScan_nil (board : Board) : ¬deadEndScan board [] := by
  rintro ⟨l1, p, l2, h, -, -⟩
  have := congrArg List.length h
  simp at this
  omega

theorem deadEndScan_cons_head (board : Board) (p : Fin 9 × Fin 9)
    (l : List (Fin 9 × Fin 9)) (hp : candList board p = []) :
    deadEndScan board (p :: l) :=
  ⟨[], p, l, rfl, hp, by simp⟩

theorem deadEndScan_cons_iff (board : Board) (p : Fin 9 × Fin 9)
    (l : List (Fin 9 × Fin 9)) (h2 : 2 ≤ (candList board p).length) :
    deadEndScan board (p :: l) ↔ deadEndScan board l := by
  constructor
  · rintro ⟨l1, q, l2, hsplit, hq, hpre⟩
    rcases cons_eq_append_cons p l l1 l2 q hsplit with ⟨h1, hqa, h3⟩ | ⟨l1', h1, h3⟩
    · rw [hqa] at hq
      rw [hq] at h2
      simp at h2
    · refine ⟨l1', q, l2, h3, hq, ?_⟩
      intro r hr
      exact hpre r (by rw [h1]; exact List.mem_cons_of_mem _ hr)
  · rintro ⟨l1, q, l2, hsplit, hq, hpre⟩
    refine ⟨p :: l1, q, l2, by rw [hsplit]; rfl, hq, ?_⟩
    intro r hr
    rcases List.mem_cons.mp hr with h | h
    · rw [h]; exact h2
    · exact hpre r h

theorem not_deadEndScan_cons_one (board : Board) (p : Fin 9 × Fin 9)
    (l : List (Fin 9 × Fin 9)) (h1 : (candList board p).length = 1) :
    ¬deadEndScan board (p :: l) := by
  rintro ⟨l1, q, l2, hsplit, hq, hpre⟩
  rcases cons_eq_append_cons p l l1 l2 q hsplit with ⟨ha, hqa, h3⟩ | ⟨l1', ha, h3⟩
  · rw [hqa] at hq
    rw [hq] at h1
    simp at h1
  · have := hpre p (by rw [ha]; exact List.mem_cons_self p l1')
    omega

theorem bestLoop_deadEnd_iff (board : Board) (rest : List (Fin 9 × Fin 9)) :
    ∀ best : BoardSpace, best.possible_values ≠ [] →
    (((bestLoop board rest best).1 = false ∧
      (bestLoop board rest best).2.possible_values = []) ↔
      deadEndScan board (rest.filter fun q => board q.1 q.2 == 0)) := by
  induction rest with
  | nil =>
    intro best hbne
    rw [List.filter_nil]
    apply iff_of_false _ (deadEndScan_nil board)
    rw [bestLoop_nil]
    by_cases h10 : best.possible_values.length = 10
    · rw [if_pos h10]
      rintro ⟨h, -⟩
      simp at h
    · rw [if_neg h10]
      rintro ⟨-, h⟩
      exact hbne h
  | cons p rest ih =>
    intro best hbne
    by_cases hp : board p.1 p.2 = 0
    · rw [List.filter_cons_of_pos (by simp [hp])]
      by_cases he : (getMoveValues p.1 p.2 board).possible_values = []
      · rw [bestLoop_cons_dead board p rest best hp he]
        apply iff_of_true ⟨rfl, rfl⟩
        exact deadEndScan_cons_head board p _ he
      · by_cases h1 : (getMoveValues p.1 p.2 board).possible_values.length = 1
        · rw [bestLoop_cons_one board p rest best hp he h1]
          apply iff_of_false
          · rintro ⟨-, h⟩
            exact he h
          · exact not_deadEndScan_cons_one board p _ h1
        · have h2 : 2 ≤ (candList board p).length := by
            have hpos : 0 < (getMoveValues p.1 p.2 board).possible_values.length :=
              List.length_pos.mpr he
            have : (candList board p).length =
                (getMoveValues p.1 p.2 board).possible_values.length := rfl
            omega
          rw [deadEndScan_cons_iff board p _ h2]
          by_cases hlt : (getMoveValues p.1 p.2 board).possible_values.length <
            best.possible_values.length
          · rw [bestLoop_cons_lt board p rest best hp he h1 hlt]
            exact ih _ he
          · rw [bestLoop_cons_ge board p rest best hp he h1 hlt]
            exact ih best hbne
    · rw [List.filter_cons_of_neg (by simp [hp])]
      rw [bestLoop_cons_skip board p rest best hp]
      exact ih best hbne

theorem getBestBoardSpace_deadEnd_iff (b : Board) :
    ((getBestBoardSpace b).1 = false ∧
      (getBestBoardSpace b).2.possible_values = []) ↔
      deadEndScan b (emptiesRM b) :=
  bestLoop_deadEnd_iff b cellsRowMajor ⟨0, 0, List.range 10⟩ (by decide)

/-! ### Characterizing the branch verdict of the scan -/

/-- Outcome of the scan relative to the empty cells `E` of the remaining scan
and the incoming `best_move`, when it returns the branch point `m`: either
the scan stopped at the first single-candidate empty cell (all earlier empty
cells having at least two candidates), or the incoming best move survived as
the minimum, or a cell with strictly fewer candidates than the incoming best
was selected — the first cell attaining the minimum in scan order. -/
def branchScan (board : Board) (E : List (Fin 9 × Fin 9))
    (best m : BoardSpace) : Prop :=
  (∃ l1 l2, E = l1 ++ ((m.x, m.y) : Fin 9 × Fin 9) :: l2 ∧
     (∀ q ∈ l1, 2 ≤ (candList board q).length) ∧
     m = getMoveValues m.x m.y board ∧ m.possible_values.length = 1) ∨
  (m = best ∧ best.possible_values.length ≠ 10 ∧
     ∀ q ∈ E, 2 ≤ (candList board q).length ∧
       best.possible_values.length ≤ (candList board q).length) ∨
  ((∀ q ∈ E, 2 ≤ (candList board q).length) ∧
   ∃ l1 l2, E = l1 ++ ((m.x, m.y) : Fin 9 × Fin 9) :: l2 ∧
     m = getMoveValues m.x m.y board ∧ 2 ≤ m.possible_values.length ∧
     m.possible_values.length < best.possible_values.length ∧
     (∀ q ∈ l1, m.possible_values.length < (candList board q).length) ∧
     (∀ q ∈ l2, m.possible_values.length ≤ (candList board q).length))

theorem bestLoop_branch_scan (board : Board) (rest : List (Fin 9 × Fin 9)) :
    ∀ best : BoardSpace,
    (best.possible_values.length = 10 ∨ moveBest board best) →
    ∀ m, bestLoop board rest best = (false, m) → m.possible_values ≠ [] →
    branchScan board (rest.filter fun q => board q.1 q.2 == 0) best m := by
  induction rest with
  | nil =>
    intro best hb m h hne
    rw [List.filter_nil]
    rw [bestLoop_nil] at h
    by_cases h10 : best.possible_values.length = 10
    · rw [if_pos h10] at h
      have : true = false := congrArg Prod.fst h
      exact absurd this (by simp)
    · rw [if_neg h10] at h
      have hmb : best = m := congrArg Prod.snd h
      subst hmb
      exact Or.inr (Or.inl ⟨rfl, h10, by simp⟩)
  | cons p rest ih =>
    intro best hb m h hne
    by_cases hp : board p.1 p.2 = 0
    · rw [List.filter_cons_of_pos (by simp [hp])]
      by_cases he : (getMoveValues p.1 p.2 board).possible_values = []
      · rw [bestLoop_cons_dead board p rest best hp he] at h
        have hmb : { best with possible_values := ([] : List Nat) } = m :=
          congrArg Prod.snd h
        rw [← hmb] at hne
        simp at hne
      · by_cases h1 : (getMoveValues p.1 p.2 board).possible_values.length = 1
        · rw [bestLoop_cons_one board p rest best hp he h1] at h
          have hmb : getMoveValues p.1 p.2 board = m := congrArg Prod.snd h
          subst hmb
          exact Or.inl ⟨[], rest.filter fun q => board q.1 q.2 == 0, rfl,
            by simp, rfl, h1⟩
        · have h2 : 2 ≤ (candList board p).length := by
            have hpos : 0 < (getMoveValues p.1 p.2 board).possible_values.length :=
              List.length_pos.mpr he
            have hre : (candList board p).length =
                (getMoveValues p.1 p.2 board).possible_values.length := rfl
            omega
          by_cases hlt : (getMoveValues p.1 p.2 board).possible_values.length <
            best.possible_values.length
          · rw [bestLoop_cons_lt board p rest best hp he h1 hlt] at h
            have hmb : moveBest board (getMoveValues p.1 p.2 board) :=
              ⟨hp, rfl, h2⟩
            have hB := ih (getMoveValues p.1 p.2 board) (Or.inr hmb) m h hne
            rcases hB with ⟨l1, l2, hsplit, hpre, hm, h1len⟩ |
              ⟨hmb2, hne10, hall⟩ |
              ⟨hall, l1, l2, hsplit, hm, h2m, hltm, hpre, hsuf⟩
            · exact Or.inl ⟨p :: l1, l2, by rw [hsplit]; rfl,
                fun q hq => by
                  rcases List.mem_cons.mp hq with hq | hq
                  · rw [hq]; exact h2
                  · exact hpre q hq,
                hm, h1len⟩
            · subst hmb2
              refine Or.inr (Or.inr ⟨?_, [], rest.filter fun q => board q.1 q.2 == 0,
                rfl, rfl, h2, hlt, by simp, fun q hq => (hall q hq).2⟩)
              intro q hq
              rcases List.mem_cons.mp hq with hq | hq
              · rw [hq]; exact h2
              · exact (hall q hq).1
            · refine Or.inr (Or.inr ⟨?_, p :: l1, l2, by rw [hsplit]; rfl, hm, h2m,
                by omega, ?_, hsuf⟩)
              · intro q hq
                rcases List.mem_cons.mp hq with hq | hq
                · rw [hq]; exact h2
                · exact hall q hq
              · intro q hq
                rcases List.mem_cons.mp hq with hq | hq
                · rw [hq]
                  exact hltm
                · exact hpre q hq
          · rw [bestLoop_cons_ge board p rest best hp he h1 hlt] at h
            have hB := ih best hb m h hne
            rcases hB with ⟨l1, l2, hsplit, hpre, hm, h1len⟩ |
              ⟨hmb2, hne10, hall⟩ |
              ⟨hall, l1, l2, hsplit, hm, h2m, hltm, hpre, hsuf⟩
            · exact Or.inl ⟨p :: l1, l2, by rw [hsplit]; rfl,
                fun q hq => by
                  rcases List.mem_cons.mp hq with hq | hq
                  · rw [hq]; exact h2
                  · exact hpre q hq,
                hm, h1len⟩
            · refine Or.inr (Or.inl ⟨hmb2, hne10, ?_⟩)
              intro q hq
              rcases List.mem_cons.mp hq with hq | hq
              · rw [hq]
                have hre : (candList board p).length =
                    (getMoveValues p.1 p.2 board).possible_values.length := rfl
                exact ⟨h2, by omega⟩
              · exact hall q hq
            · refine Or.inr (Or.inr ⟨?_, p :: l1, l2, by rw [hsplit]; rfl, hm, h2m,
                hltm, ?_, hsuf⟩)
              · intro q hq
                rcases List.mem_cons.mp hq with hq | hq
                · rw [hq]; exact h2
                · exact hall q hq
              · intro q hq
                rcases List.mem_cons.mp hq with hq | hq
                · rw [hq]
                  have hre : (candList board p).length =
                      (getMoveValues p.1 p.2 board).possible_values.length := rfl
                  omega
                · exact hpre q hq
    · rw [List.filter_cons_of_neg (by simp [hp])]
      rw [bestLoop_cons_skip board p rest best hp] at h
      exact ih best hb m h hne

theorem getBestBoardSpace_branch_scan (b : Board) (m : BoardSpace)
    (h : getBestBoardSpace b = (false, m)) (hne : m.possible_values ≠ []) :
    branchScan b (emptiesRM b) ⟨0, 0, List.range 10⟩ m :=
  bestLoop_branch_scan b cellsRowMajor ⟨0, 0, List.range 10⟩
    (Or.inl (by decide)) m h hne

/-! ### Conflict-freedom alone is preserved, write by write -/

theorem tryMovesT_preserveCF (fuel : Nat) (x y : Fin 9)
    (hrec : ∀ b2 ok2 b3 tr, solveBoardT fuel b2 = some (ok2, b3, tr) →
      conflictFree b2 →
      conflictFree b3 ∧ ∀ c ∈ tr, conflictFree c) :
    ∀ (vs : List Nat) (board b0 : Board) (ok : Bool) (b3 : Board) (tr : List Board),
      setCell board x y 0 = b0 → b0 x y = 0 →
      conflictFree b0 →
      (∀ v ∈ vs, v ∈ (getMoveValues x y b0).possible_values) →
      tryMovesT (solveBoardT fuel) x y vs board = some (ok, b3, tr) →
      conflictFree b3 ∧ ∀ c ∈ tr, conflictFree c := by
  intro vs
  induction vs with
  | nil =>
    intro board b0 ok b3 tr h0 hb0 hcf hv h
    rw [tryMovesT_nil] at h
    simp only [Option.some.injEq, Prod.mk.injEq] at h
    obtain ⟨-, hb, htr⟩ := h
    rw [← hb, h0]
    rw [← htr]
    refine ⟨hcf, ?_⟩
    intro c hc
    rw [List.mem_singleton] at hc
    rw [hc, h0]
    exact hcf
  | cons v rest ih =>
    intro board b0 ok b3 tr h0 hb0 hcf hv h
    have hsv : setCell board x y v = setCell b0 x y v := by
      rw [← h0, setCell_setCell]
    have hvmem : v ∈ (getMoveValues x y b0).possible_values :=
      hv v (List.mem_cons_self v rest)
    have hcf1 : conflictFree (setCell board x y v) := by
      rw [hsv]; exact conflictFree_place b0 x y v hcf hb0 hvmem
    cases hE : solveBoardT fuel (setCell board x y v) with
    | none =>
      rw [tryMovesT_cons_none _ _ _ _ _ _ hE] at h
      exact absurd h (by simp)
    | some r =>
      obtain ⟨ok2, b2, tr2⟩ := r
      have hgood2 := hrec _ _ _ _ hE hcf1
      cases ok2 with
      | true =>
        rw [tryMovesT_cons_true _ _ _ _ _ _ _ _ hE] at h
        simp only [Option.some.injEq, Prod.mk.injEq] at h
        obtain ⟨-, hb, htr⟩ := h
        rw [← hb, ← htr]
        refine ⟨hgood2.1, ?_⟩
        intro c hc
        rcases List.mem_cons.mp hc with hc | hc
        · rw [hc]; exact hcf1
        · exact hgood2.2 c hc
      | false =>
        have hb2 : b2 = setCell board x y v := solveBoardT_restore fuel _ _ _ hE
        cases hE2 : tryMovesT (solveBoardT fuel) x y rest b2 with
        | none =>
          rw [tryMovesT_cons_false_none _ _ _ _ _ _ _ _ hE hE2] at h
          exact absurd h (by simp)
        | some r2 =>
          obtain ⟨ok3, b4, tr3⟩ := r2
          rw [tryMovesT_cons_false_some _ _ _ _ _ _ _ _ _ _ _ hE hE2] at h
          simp only [Option.some.injEq, Prod.mk.injEq] at h
          obtain ⟨-, hb, htr⟩ := h
          have hihres := ih b2 b0 ok3 b4 tr3
            (by rw [hb2, setCell_setCell, h0]) hb0 hcf
            (fun w hw => hv w (List.mem_cons_of_mem v hw)) hE2
          rw [← hb, ← htr]
          refine ⟨hihres.1, ?_⟩
          intro c hc
          rcases List.mem_cons.mp hc with hc | hc
          · rw [hc]; exact hcf1
          · rcases List.mem_append.mp hc with hc | hc
            · exact hgood2.2 c hc
            · exact hihres.2 c hc

theorem solveBoardT_preserveCF : ∀ (fuel : Nat) (b : Board) (ok : Bool) (b3 : Board)
    (tr : List Board), solveBoardT fuel b = some (ok, b3, tr) →
    conflictFree b →
    conflictFree b3 ∧ ∀ c ∈ tr, conflictFree c := by
  intro fuel
  induction fuel with
  | zero =>
    intro b ok b3 tr h
    exact absurd h (by simp [solveBoardT_zero])
  | succ fuel ih =>
    intro b ok b3 tr h hcf
    by_cases hs : (getBestBoardSpace b).1 = true
    · rw [solveBoardT_succ_solved fuel b hs] at h
      simp only [Option.some.injEq, Prod.mk.injEq] at h
      obtain ⟨-, hb, htr⟩ := h
      rw [← hb, ← htr]
      exact ⟨hcf, by simp⟩
    · have hs' : (getBestBoardSpace b).1 = false := by simpa using hs
      by_cases he : (getBestBoardSpace b).2.possible_values = []
      · rw [solveBoardT_succ_dead fuel b hs' he] at h
        simp only [Option.some.injEq, Prod.mk.injEq] at h
        obtain ⟨-, hb, htr⟩ := h
        rw [← hb, ← htr]
        exact ⟨hcf, by simp⟩
      · rw [solveBoardT_succ_branch fuel b hs' he] at h
        obtain ⟨hxy0, hm⟩ :=
          getBestBoardSpace_branch_facts b _ (getBestBoardSpace_pair b hs') he
        exact tryMovesT_preserveCF fuel _ _ ih _ b b ok b3 tr
          (setCell_zero_eq b _ _ hxy0) hxy0 hcf
          (fun w hw => by rw [hm] at hw; exact hw) h

/-! ### Direct consequences for solveBoard -/

theorem solveBoard_of_full (b : Board) (h : isFull b) : solveBoard b = (true, b) := by
  have hs : (getBestBoardSpace b).1 = true := (getBestBoardSpace_true_iff b).mpr h
  exact solveBoard_eq_of b true b [] (solveBoardT_succ_solved (emptyCount b) b hs)

theorem solveBoard_false_restore (b : Board) (h : (solveBoard b).1 = false) :
    (solveBoard b).2 = b := by
  obtain ⟨ok, b2, tr, hrun, heq⟩ := solveBoard_run b
  rw [heq] at h ⊢
  have hok : ok = false := h
  subst hok
  exact solveBoardT_restore _ _ _ _ hrun

/-! ### Reading the three verdicts off getBestBoardSpace's raw result -/

theorem verdictOf_solved_iff (r : Bool × BoardSpace) :
    verdictOf r = Verdict.solved ↔ r.1 = true := by
  unfold verdictOf
  by_cases h : r.1 = true
  · simp [h]
  · have h' : r.1 = false := by simpa using h
    rw [h']
    by_cases he : r.2.possible_values = [] <;> simp [he]

theorem verdictOf_deadEnd_iff (r : Bool × BoardSpace) :
    verdictOf r = Verdict.deadEnd ↔ r.1 = false ∧ r.2.possible_values = [] := by
  unfold verdictOf
  by_cases h : r.1 = true
  · simp [h]
  · have h' : r.1 = false := by simpa using h
    rw [h']
    by_cases he : r.2.possible_values = [] <;> simp [he]

theorem verdictOf_branch_iff (r : Bool × BoardSpace) (x y : Fin 9) (L : List Nat) :
    verdictOf r = Verdict.branch x y L ↔
      r.1 = false ∧ r.2.possible_values ≠ [] ∧ r.2.x = x ∧ r.2.y = y ∧
        r.2.possible_values = L := by
  unfold verdictOf
  by_cases h : r.1 = true
  · simp [h]
  · have h' : r.1 = false := by simpa using h
    rw [h']
    by_cases he : r.2.possible_values = [] <;> simp [he, Verdict.branch.injEq]

theorem some_getD {α : Type} (o : Option α) (d : α) (h : o.isSome = true) :
    o = some (o.getD d) := by
  cases o with
  | none => simp at h
  | some a => rfl

/-! ### The claims -/

/-- Claim C1, counterexample to the claim as stated.  The claim quantifies
over every board; at the all-ones board (full, but with massive duplications)
solveBoard returns true, yet the board is not validly solved, so neither
disjunct of the claimed contract holds. -/
theorem claim_C1_counterexample :
    ¬(((solveBoard allOnesBoard).1 = true ∧
        isSolvedBoard (solveBoard allOnesBoard).2) ∨
      ((solveBoard allOnesBoard).1 = false ∧
        (solveBoard allOnesBoard).2 = allOnesBoard)) := by
  decide

/-- Claim C1 (amended to boards satisfying the spec's Board data-model
invariants — cell values in [0,9] and no duplicated non-zero value in a row,
column or box): solveBoard either returns true with the board fully and
validly solved, or returns false with the board restored bit-for-bit; in
particular on a board with an empty cell that has zero legal candidates it
returns false and leaves the board unchanged. -/
theorem claim_C1 (b : Board) (hir : inRange b) (hcf : conflictFree b) :
    (((solveBoard b).1 = true ∧ isSolvedBoard (solveBoard b).2) ∨
     ((solveBoard b).1 = false ∧ (solveBoard b).2 = b)) ∧
    ((∃ p : Fin 9 × Fin 9, b p.1 p.2 = 0 ∧ candList b p = []) →
      (solveBoard b).1 = false ∧ (solveBoard b).2 = b) := by
  obtain ⟨ok, b2, tr, hrun, heq⟩ := solveBoard_run b
  constructor
  · cases ok with
    | true =>
      left
      rw [heq]
      refine ⟨rfl, ?_⟩
      have hfull := solveBoardT_full _ _ _ _ hrun
      have hpres := solveBoardT_preserve _ _ _ _ _ hrun hcf hir
      exact isSolvedBoard_of b2 hfull hpres.1.2 hpres.1.1
    | false =>
      right
      rw [heq]
      exact ⟨rfl, solveBoardT_restore _ _ _ _ hrun⟩
  · intro hdead
    have hok : ok = false := solveBoardT_dead_false _ _ hdead _ _ _ hrun
    subst hok
    rw [heq]
    exact ⟨rfl, solveBoardT_restore _ _ _ _ hrun⟩

theorem claim_C1_witness :
    ((solveBoard wOneHole).1 = true ∧ isSolvedBoard (solveBoard wOneHole).2) ∨
    ((solveBoard wOneHole).1 = false ∧ (solveBoard wOneHole).2 = wOneHole) :=
  (claim_C1 wOneHole (by decide) (by decide)).1

/-- Claim C2: for every solvable 9×9 puzzle — a valid board (cells in [0,9],
no conflicts) with at least one completion — solveBoard returns true and the
resulting board has each of 1–9 exactly once in every row, column and 3×3
box. -/
theorem claim_C2 (b : Board) (hir : inRange b) (hcf : conflictFree b)
    (hsolv : ∃ s, isCompletion b s) :
    (solveBoard b).1 = true ∧ isSolvedBoard (solveBoard b).2 := by
  obtain ⟨ok, b2, tr, hrun, heq⟩ := solveBoard_run b
  have hok : ok = true := solveBoardT_complete _ _ (by omega) hsolv _ _ _ hrun
  subst hok
  rw [heq]
  refine ⟨rfl, ?_⟩
  have hfull := solveBoardT_full _ _ _ _ hrun
  have hpres := solveBoardT_preserve _ _ _ _ _ hrun hcf hir
  exact isSolvedBoard_of b2 hfull hpres.1.2 hpres.1.1

theorem claim_C2_witness :
    (solveBoard wOneHole).1 = true ∧ isSolvedBoard (solveBoard wOneHole).2 :=
  claim_C2 wOneHole (by decide) (by decide) ⟨wSolved, by decide⟩

/-- Claim C3: for an empty cell, getMoveValues is a pure function of the
board (it is a Lean function of the board alone) returning a strictly
ascending, duplicate-free list of values in [1,9], containing exactly the
values not present in the cell's row, column or containing 3×3 box. -/
theorem claim_C3 (b : Board) (x y : Fin 9) (h0 : b x y = 0) :
    List.Pairwise (· < ·) (getMoveValues x y b).possible_values ∧
    (getMoveValues x y b).possible_values.Nodup ∧
    (∀ v ∈ (getMoveValues x y b).possible_values, 1 ≤ v ∧ v ≤ 9) ∧
    (∀ v : Nat, v ∈ (getMoveValues x y b).possible_values ↔
      (1 ≤ v ∧ v ≤ 9) ∧ (∀ c, b x c ≠ v) ∧ (∀ r, b r y ≠ v) ∧
      (∀ q : Fin 9 × Fin 9, q.1.val / 3 = x.val / 3 → q.2.val / 3 = y.val / 3 →
        b q.1 q.2 ≠ v)) := by
  refine ⟨candList_sorted b (x, y), candList_nodup b (x, y), ?_, ?_⟩
  · intro v hv
    exact ((mem_getMoveValues v x y b).mp hv).1
  · intro v
    exact mem_candList b (x, y) v

theorem claim_C3_witness :
    List.Pairwise (· < ·) (getMoveValues 0 0 zeroBoard).possible_values ∧
    (getMoveValues 0 0 zeroBoard).possible_values.Nodup :=
  ⟨(claim_C3 zeroBoard 0 0 rfl).1, (claim_C3 zeroBoard 0 0 rfl).2.1⟩

/-- Claim C5: an already complete valid board is solved without mutation, and
solving twice returns true both times with no further change. -/
theorem claim_C5 (b : Board) (hfull : isFull b) (hir : inRange b)
    (hcf : conflictFree b) :
    solveBoard b = (true, b) ∧ solveBoard (solveBoard b).2 = (true, b) := by
  have h1 := solveBoard_of_full b hfull
  refine ⟨h1, ?_⟩
  rw [h1]
  exact h1

theorem claim_C5_witness :
    solveBoard wSolved = (true, wSolved) ∧
    solveBoard (solveBoard wSolved).2 = (true, wSolved) :=
  claim_C5 wSolved (by decide) (by decide) (by decide)

/-- Claim C6: solveBoard terminates on every board, with recursion depth
bounded by the number of empty cells at entry, which is at most 81: running
the fuel-indexed solver with `emptyCount b + 1` fuel — one unit per nesting
level, so at most `emptyCount b` nested recursive invocations below the
outermost call — always completes instead of running out of fuel. -/
theorem claim_C6 (b : Board) :
    emptyCount b ≤ 81 ∧ (solveBoardT (emptyCount b + 1) b).isSome :=
  ⟨emptyCount_le b, solveBoardT_some _ b (by omega)⟩

/-- Claim C7: starting from a conflict-free board, every board state after
each write the solver performs (placing a candidate value or clearing a cell
to 0 — the recorded trace of solveBoardT) is still conflict-free, and so is
the final board: the solver never places an illegal value. -/
theorem claim_C7 (fuel : Nat) (b : Board) (ok : Bool) (b2 : Board)
    (tr : List Board) (hrun : solveBoardT fuel b = some (ok, b2, tr))
    (hcf : conflictFree b) :
    conflictFree b2 ∧ ∀ c ∈ tr, conflictFree c :=
  solveBoardT_preserveCF fuel b ok b2 tr hrun hcf

theorem claim_C7_witness : conflictFree wSolved :=
  (claim_C7 2 wOneHole true wSolved [wSolved]
    (by
      rw [some_getD (solveBoardT 2 wOneHole) (false, zeroBoard, []) (by decide)]
      rw [show (solveBoardT 2 wOneHole).getD (false, zeroBoard, []) =
        (true, wSolved, [wSolved]) by decide])
    (by decide)).1

/-- Claim C10: the candidate computation is total on all of [0,8]×[0,8] —
in particular every 3×3-section access `board[base+d]` is in bounds — and
when the addressed cell holds a non-zero value v, the returned candidate
sequence never contains v, because v occurs in the cell's own row. -/
theorem claim_C10 (b : Board) (x y : Fin 9) (hxy : b x y ≠ 0) :
    (∀ (n : Fin 9) (d : Fin 3), sectionBase n + d.val < 9) ∧
    b x y ∉ (getMoveValues x y b).possible_values := by
  refine ⟨?_, ?_⟩
  · intro n d
    have hn := n.isLt
    have hd := d.isLt
    simp only [sectionBase]
    omega
  · intro hmem
    have h := (mem_getMoveValues (b x y) x y b).mp hmem
    have htrue : checkRowForValue (b x y) x b = true :=
      (checkRow_iff _ _ _).mpr ⟨y, rfl⟩
    rw [h.2.1] at htrue
    exact absurd htrue (by simp)

theorem claim_C10_witness :
    allOnesBoard 0 0 ∉ (getMoveValues 0 0 allOnesBoard).possible_values :=
  (claim_C10 allOnesBoard 0 0 (by decide)).2

theorem mem_emptiesRM (b : Board) (p : Fin 9 × Fin 9) :
    p ∈ emptiesRM b ↔ b p.1 p.2 = 0 := by
  unfold emptiesRM
  rw [List.mem_filter]
  simp [mem_cellsRowMajor p]

/-- Claim C4: the global cell selector returns Solved exactly when no empty
cell remains; DeadEnd exactly when the row-major scan reaches an empty cell
with zero candidates before any cell with fewer than two candidates; and
otherwise a Branch point at an empty cell whose candidate list it returns —
either the first cell found with exactly one candidate (scan stops there), or
else the empty cell with the fewest candidates, ties broken by the first such
cell in row-major order. -/
theorem claim_C4 (b : Board) :
    (verdictOf (getBestBoardSpace b) = Verdict.solved ↔ ∀ i j : Fin 9, b i j ≠ 0) ∧
    (verdictOf (getBestBoardSpace b) = Verdict.deadEnd ↔
      ∃ l1 p l2, emptiesRM b = l1 ++ p :: l2 ∧ candList b p = [] ∧
        ∀ q ∈ l1, 2 ≤ (candList b q).length) ∧
    (∀ (x y : Fin 9) (L : List Nat),
      verdictOf (getBestBoardSpace b) = Verdict.branch x y L →
      b x y = 0 ∧ candList b (x, y) = L ∧ L ≠ [] ∧
      ((L.length = 1 ∧
        ∃ l1 l2, emptiesRM b = l1 ++ ((x, y) : Fin 9 × Fin 9) :: l2 ∧
          ∀ q ∈ l1, 2 ≤ (candList b q).length) ∨
       (2 ≤ L.length ∧
        (∀ q ∈ emptiesRM b, 2 ≤ (candList b q).length ∧
          L.length ≤ (candList b q).length) ∧
        ∃ l1 l2, emptiesRM b = l1 ++ ((x, y) : Fin 9 × Fin 9) :: l2 ∧
          ∀ q ∈ l1, L.length < (candList b q).length))) := by
  refine ⟨?_, ?_, ?_⟩
  · rw [verdictOf_solved_iff, getBestBoardSpace_true_iff]
    exact Iff.rfl
  · rw [verdictOf_deadEnd_iff]
    exact getBestBoardSpace_deadEnd_iff b
  · intro x y L h
    rw [verdictOf_branch_iff] at h
    obtain ⟨hs', hne, hx, hy, hL⟩ := h
    have hbs := getBestBoardSpace_branch_scan b _ (getBestBoardSpace_pair b hs') hne
    have hcand_eq : ∀ (hm : (getBestBoardSpace b).2 =
        getMoveValues (getBestBoardSpace b).2.x (getBestBoardSpace b).2.y b),
        candList b ((getBestBoardSpace b).2.x, (getBestBoardSpace b).2.y) = L := by
      intro hm
      rw [← hL]
      exact (congrArg BoardSpace.possible_values hm).symm
    rcases hbs with ⟨l1, l2, hsplit, hpre, hm, h1len⟩ | ⟨-, hne10, -⟩ |
      ⟨hall, l1, l2, hsplit, hm, h2m, hltm, hpreC, hsuf⟩
    · have hmem : (((getBestBoardSpace b).2.x, (getBestBoardSpace b).2.y) :
          Fin 9 × Fin 9) ∈ emptiesRM b := by
        rw [hsplit]
        exact List.mem_append_right _ (List.mem_cons_self _ _)
      have hempty := (mem_emptiesRM b _).mp hmem
      refine ⟨?_, ?_, ?_, Or.inl ⟨?_, l1, l2, ?_, hpre⟩⟩
      · rw [← hx, ← hy]; exact hempty
      · rw [← hx, ← hy]; exact hcand_eq hm
      · rw [← hL]; exact hne
      · rw [← hL]; exact h1len
      · rw [← hx, ← hy]; exact hsplit
    · exact absurd (by decide :
        (⟨0, 0, List.range 10⟩ : BoardSpace).possible_values.length = 10) hne10
    · have hmem : (((getBestBoardSpace b).2.x, (getBestBoardSpace b).2.y) :
          Fin 9 × Fin 9) ∈ emptiesRM b := by
        rw [hsplit]
        exact List.mem_append_right _ (List.mem_cons_self _ _)
      have hempty := (mem_emptiesRM b _).mp hmem
      refine ⟨?_, ?_, ?_, Or.inr ⟨?_, ?_, l1, l2, ?_, ?_⟩⟩
      · rw [← hx, ← hy]; exact hempty
      · rw [← hx, ← hy]; exact hcand_eq hm
      · rw [← hL]; exact hne
      · rw [← hL]; exact h2m
      · intro q hq
        refine ⟨hall q hq, ?_⟩
        rw [hsplit] at hq
        rcases List.mem_append.mp hq with hq1 | hq2
        · rw [← hL]
          exact Nat.le_of_lt (hpreC q hq1)
        · rcases List.mem_cons.mp hq2 with hqc | hqc
          · rw [hqc, hcand_eq hm]
          · rw [← hL]
            exact hsuf q hqc
      · rw [← hx, ← hy]; exact hsplit
      · rw [← hL]; exact hpreC

theorem claim_C4_witness :
    zeroBoard 0 0 = 0 ∧
    candList zeroBoard (0, 0) = [1, 2, 3, 4, 5, 6, 7, 8, 9] := by
  have h := (claim_C4 zeroBoard).2.2 0 0 [1, 2, 3, 4, 5, 6, 7, 8, 9] (by decide)
  exact ⟨h.1, h.2.1⟩

/-- Claim C8, evaluation at the failing inputs.  The loader accepts a
truncated source of five lines of nine digits whose last line is not
newline-terminated — `std::getline` leaves `row_str` unchanged once eofbit is
set, so the last line is re-parsed for the missing rows and the board is
filled with its digits — contradicting the claim that a source with missing
lines fails.  A source whose first row has eight characters does yield a
failure rather than a crash, and a source of nine newline-terminated rows is
rejected because eofbit is still unset after the ninth getline. -/
theorem claim_C8 :
    (loadPuzzle w8trunc zeroBoard).1 = true ∧
    (loadPuzzle w8trunc zeroBoard).2 = allOnesBoard ∧
    (loadPuzzle w8shortRow zeroBoard).1 = false ∧
    (loadPuzzle w8nineNL zeroBoard).1 = false := by
  decide

/-- Claim C9: main discards solveBoard's boolean result, so for an input that
loads successfully but is unsolvable it still prints the solved-puzzle
heading followed by the restored (unchanged) board and exits with status 0 —
at the exit-code level indistinguishable from a successful solve. -/
theorem claim_C9 (b0 : Board) (content : List Char) (b : Board)
    (hload : loadPuzzle content b0 = (true, b))
    (hunsolv : (solveBoard b).1 = false) :
    mainModel b0 content = (0, [OutEvent.unsolvedHeading, OutEvent.boardOut b,
      OutEvent.solvedHeading, OutEvent.boardOut b, OutEvent.timeTaken]) := by
  have hrestore : (solveBoard b).2 = b := solveBoard_false_restore b hunsolv
  unfold mainModel
  rw [hload]
  simp [hrestore]

theorem claim_C9_witness :
    mainModel zeroBoard w9content = (0, [OutEvent.unsolvedHeading,
      OutEvent.boardOut w9board, OutEvent.solvedHeading,
      OutEvent.boardOut w9board, OutEvent.timeTaken]) :=
  claim_C9 zeroBoard w9content w9board (by decide) (by decide)
